import Mathlib

/-!
Verification of the analyze-logs repository (src/main.py) against its
natural-language specification.

The program reads a log file, applies up to four regular-expression
extractors to every line (a user-supplied pattern, an IPv4 pattern, an
ERROR-code pattern, a User-Agent pattern) and collects the results into a
table of records.

Shallow embedding conventions:
  - a Python string is a Lean String, matching works on List Char;
  - the Python re.search of each fixed pattern of main.py is translated to
    an executable Lean function implementing the left-to-right scan and the
    greedy backtracking of that concrete pattern (character classes are
    modelled over ASCII, which covers every string in the claims);
  - the user-supplied regex is abstracted as a pair of its raw text (used
    by the truthiness test of the code) and its compilation outcome: either
    a compile error, as raised by re for a malformed pattern, or a search
    function String to Option String;
  - a record (a Python dict built by insertion) is an ordered association
    list from field name to optional extracted string;
  - the open of the log file is modelled by Option (List String): none
    models FileNotFoundError and kindred open failures, some gives the
    list of lines produced by readlines;
  - errors caught by the two except blocks of analyze_log_file are modelled
    by an error flag returned next to the table.
-/

namespace AnalyzeLogs

/-! ## Character classes (ASCII model of the Python re classes) -/

/-- Digit class, the regex class [0-9]. -/
def isDig (c : Char) : Bool := '0' ≤ c && c ≤ '9'

/-- Whitespace class, an ASCII model of the regex class backslash-s and of
the default character set of the Python str.strip method. -/
def isPySpace (c : Char) : Bool :=
  c = ' ' || c = '\t' || c = '\n' || c = '\x0d' || c = '\x0b' || c = '\x0c'

/-- Word-character class, an ASCII model of the regex class backslash-w,
used by the word-boundary assertion. -/
def isWordChar (c : Char) : Bool := c.isAlpha || isDig c || c = '_'

/-- Word-character test lifted to an optional character; none stands for
the edge of the string and is never a word character. -/
def isWordO : Option Char → Bool
  | none => false
  | some c => isWordChar c

/-- Word boundary between two adjacent optional characters. -/
def bdy (a b : Option Char) : Bool := isWordO a != isWordO b

/-! ## Small scanning utilities -/

/-- Strip a literal token from the front of a list: some remainder when the
list starts with the token, none otherwise. -/
def dropLit : List Char → List Char → Option (List Char)
  | [], u => some u
  | _ :: _, [] => none
  | p :: ps, c :: cs => if p = c then dropLit ps cs else none

/-- Remainder after the first occurrence of a literal token, scanning left
to right; none when the token does not occur. -/
def firstOcc (pat : List Char) (s : List Char) : Option (List Char) :=
  match dropLit pat s with
  | some v => some v
  | none =>
    match s with
    | [] => none
    | _ :: rest => firstOcc pat rest

/-- Length of the longest prefix whose characters satisfy p. -/
def countP (p : Char → Bool) (u : List Char) : Nat := (u.takeWhile p).length

/-- The list n, n-1, ..., 1. -/
def downFrom : Nat → List Nat
  | 0 => []
  | n + 1 => (n + 1) :: downFrom n

/-- Try a continuation on candidate values in order, returning the first
success: the backtracking choice combinator of a regex engine. -/
def tryLens {α : Type} (k : Nat → Option α) : List Nat → Option α
  | [] => none
  | l :: ls =>
    match k l with
    | some r => some r
    | none => tryLens k ls

/-- One step of re.search: try the position matcher on every suffix, left
to right, threading the previous character (needed by word boundaries).
Also tries the empty suffix at the very end, as re.search does. -/
def searchAux {α : Type} (m : Option Char → List Char → Option α) :
    Option Char → List Char → Option α
  | prev, [] => m prev []
  | prev, c :: rest =>
    match m prev (c :: rest) with
    | some r => some r
    | none => searchAux m (some c) rest

/-- The re.search scan from the start of the string. -/
def reSearch {α : Type} (m : Option Char → List Char → Option α)
    (s : List Char) : Option α :=
  searchAux m none s

/-! ## Numeric value and dotted-quad grammar (used by the specification
side of the IPv4 claims) -/

/-- Numeric value of a digit string, most significant digit first. -/
def digitsVal (g : List Char) : Nat :=
  g.foldl (fun a c => 10 * a + (c.toNat - 48)) 0

/-- One dotted-quad group per the specification: one to three digits whose
numeric value is at most 255. -/
def octOk (g : List Char) : Bool :=
  !g.isEmpty && g.length ≤ 3 && g.all isDig && digitsVal g ≤ 255

/-- Split a character list on the dot character, keeping empty pieces. -/
def splitDots : List Char → List (List Char)
  | [] => [[]]
  | c :: rest =>
    if c = '.' then [] :: splitDots rest
    else
      match splitDots rest with
      | g :: gs => (c :: g) :: gs
      | [] => [[c]]

/-- The dotted-quad grammar of the specification: four dot-separated groups
of one to three digits, each numerically at most 255. -/
def isQuad (t : List Char) : Bool :=
  match splitDots t with
  | [g1, g2, g3, g4] => octOk g1 && octOk g2 && octOk g3 && octOk g4
  | _ => false

def joinDots : List (List Char) → List Char
  | [] => []
  | [g] => g
  | g :: gs => g ++ '.' :: joinDots gs

/-- Longest digit prefix of a list. -/
def dRun (u : List Char) : List Char := u.takeWhile isDig

/-! ## The IPv4 pattern of main.py line 62

The pattern is, written out:
  backslash-b (?: (?: 25[0-5] | 2[0-4][0-9] | [01]?[0-9][0-9]? ) dot ){3}
  (?: 25[0-5] | 2[0-4][0-9] | [01]?[0-9][0-9]? ) backslash-b
The three octet alternatives are tried in pattern order, the two optional
pieces of the third alternative are greedy; we list the candidate consumed
lengths of the octet group in exactly the order the backtracking engine of
re tries them. -/

/-- First alternative of the octet group: 25[0-5]. -/
def octAlt1 : List Char → List Nat
  | a :: b :: c :: _ =>
    if a = '2' && b = '5' && ('0' ≤ c && c ≤ '5') then [3] else []
  | _ => []

/-- Second alternative of the octet group: 2[0-4][0-9]. -/
def octAlt2 : List Char → List Nat
  | a :: b :: c :: _ =>
    if a = '2' && ('0' ≤ b && b ≤ '4') && isDig c then [3] else []
  | _ => []

/-- Third alternative, both optional pieces taken: [01][0-9][0-9]. -/
def octAlt3a : List Char → List Nat
  | a :: b :: c :: _ =>
    if (a = '0' || a = '1') && isDig b && isDig c then [3] else []
  | _ => []

/-- Third alternative, first optional piece only: [01][0-9]. -/
def octAlt3b : List Char → List Nat
  | a :: b :: _ => if (a = '0' || a = '1') && isDig b then [2] else []
  | _ => []

/-- Third alternative, second optional piece only: [0-9][0-9]. -/
def octAlt3c : List Char → List Nat
  | a :: b :: _ => if isDig a && isDig b then [2] else []
  | _ => []

/-- Third alternative, neither optional piece: [0-9]. -/
def octAlt3d : List Char → List Nat
  | a :: _ => if isDig a then [1] else []
  | _ => []

/-- Candidate consumed lengths of the whole octet group, in the order the
backtracking engine of re tries the alternatives and option choices. -/
def octLens (u : List Char) : List Nat :=
  octAlt1 u ++ octAlt2 u ++ (octAlt3a u ++ octAlt3b u ++ octAlt3c u ++ octAlt3d u)

/-- Deterministic normal form of the IPv4 body match: final octet. -/
def specEnd (u : List Char) (p : Nat) : Option Nat :=
  if octOk (dRun (u.drop p)) = true ∧
      isWordO ((u.drop (p + (dRun (u.drop p)).length)).head?) = false then
    some (p + (dRun (u.drop p)).length)
  else none

/-- Deterministic normal form: third octet and its dot, then the end. -/
def specFrom2 (u : List Char) (p : Nat) : Option Nat :=
  if octOk (dRun (u.drop p)) = true ∧
      (u.drop (p + (dRun (u.drop p)).length)).head? = some '.' then
    specEnd u (p + (dRun (u.drop p)).length + 1)
  else none

/-- Deterministic normal form: second octet and its dot, then the rest. -/
def specFrom3 (u : List Char) (p : Nat) : Option Nat :=
  if octOk (dRun (u.drop p)) = true ∧
      (u.drop (p + (dRun (u.drop p)).length)).head? = some '.' then
    specFrom2 u (p + (dRun (u.drop p)).length + 1)
  else none

/-- Deterministic normal form of the whole IPv4 body match at a position:
four maximal digit runs, the first three followed by dots, the last by a
non-word edge. The backtracking of the pattern computes exactly this. -/
def specFrom (u : List Char) : Option Nat :=
  if octOk (dRun u) = true ∧ (u.drop (dRun u).length).head? = some '.' then
    specFrom3 u ((dRun u).length + 1)
  else none

/-- Match of the IPv4 pattern body (everything after the leading word
boundary) at the start of u, by backtracking over the octet alternatives:
three octets each followed by a dot, a fourth octet, then the trailing word
boundary. Returns the total number of characters consumed. -/
def matchIpFrom (u : List Char) : Option Nat :=
  tryLens (fun l1 =>
    if (u.drop l1).head? = some '.' then
      tryLens (fun l2 =>
        if (u.drop (l1 + 1 + l2)).head? = some '.' then
          tryLens (fun l3 =>
            if (u.drop (l1 + 1 + l2 + 1 + l3)).head? = some '.' then
              tryLens (fun l4 =>
                if bdy ((u.take (l1 + 1 + l2 + 1 + l3 + 1 + l4)).getLast?)
                    ((u.drop (l1 + 1 + l2 + 1 + l3 + 1 + l4)).head?) = true then
                  some (l1 + 1 + l2 + 1 + l3 + 1 + l4)
                else none)
                (octLens (u.drop (l1 + 1 + l2 + 1 + l3 + 1)))
            else none)
            (octLens (u.drop (l1 + 1 + l2 + 1)))
        else none)
        (octLens (u.drop (l1 + 1)))
    else none)
    (octLens u)

/-- Match of the full IPv4 pattern at one position: the leading word
boundary between the previous character and the head, then the body.
Returns the matched text (group 0 of the pattern). -/
def matchIpAt (prev : Option Char) (u : List Char) : Option (List Char) :=
  if bdy prev u.head? then (matchIpFrom u).map (fun t => u.take t) else none

/-- Embedding of re.search of the IPv4 pattern on a line, main.py line 62. -/
def pyIpSearch (s : String) : Option String :=
  (reSearch matchIpAt s.toList).map List.asString

/-! ## The error-code pattern of main.py line 69: ERROR backslash-s+
(backslash-d+), stored via group 1 -/

/-- Candidate consumed lengths of a greedy plus over a character class:
the full run first, then ever shorter, down to one. -/
def plusLens (p : Char → Bool) (u : List Char) : List Nat :=
  downFrom (countP p u)

/-- Match of the error-code pattern at the start of u: the literal ERROR,
then backtracking over the greedy whitespace plus, then the greedy digit
plus whose text is group 1, the returned value. -/
def matchErrAt (u : List Char) : Option (List Char) :=
  match dropLit ("ERROR".toList) u with
  | none => none
  | some v =>
    tryLens (fun k =>
      if (dRun (v.drop k)).isEmpty then none else some (dRun (v.drop k)))
      (plusLens isPySpace v)

/-- Embedding of re.search of the error-code pattern on a line, main.py
line 69; the stored value is group 1. -/
def pyErrSearch (s : String) : Option String :=
  (reSearch (fun _ u => matchErrAt u) s.toList).map List.asString

/-! ## The user-agent pattern of main.py line 76: User-Agent:
backslash-s* (.+), stored via group 1 -/

/-- Backtracking tail of the user-agent pattern after the literal token:
the greedy whitespace star has consumed k characters of v, largest k
first; group 1 is then the greedy dot plus, one or more characters other
than the newline. -/
def uaBack (v : List Char) : Nat → Option (List Char)
  | 0 =>
    match v.head? with
    | some c => if c = '\n' then none else some (v.takeWhile (fun x => x != '\n'))
    | none => none
  | k + 1 =>
    match (v.drop (k + 1)).head? with
    | some c =>
      if c = '\n' then uaBack v k
      else some ((v.drop (k + 1)).takeWhile (fun x => x != '\n'))
    | none => uaBack v k

/-- Match of the user-agent pattern at the start of u: the literal token,
then the backtracking whitespace star starting from its greedy maximum. -/
def matchUaAt (u : List Char) : Option (List Char) :=
  match dropLit ("User-Agent:".toList) u with
  | none => none
  | some v => uaBack v (countP isPySpace v)

/-- Embedding of re.search of the user-agent pattern on a line, main.py
line 76; the stored value is group 1. -/
def pyUaSearch (s : String) : Option String :=
  (reSearch (fun _ u => matchUaAt u) s.toList).map List.asString

/-! ## A concrete user-suppliable pattern -/

/-- Whether pat occurs as a contiguous sublist of s. -/
def hasSub (pat : List Char) : List Char → Bool :=
  fun s =>
    match firstOcc pat s with
    | some _ => true
    | none => false

/-- Search function of a regex that is a plain literal with no special
characters: re.search returns the pattern text itself on the first
occurrence, none when the pattern does not occur. Used to instantiate the
abstract user-supplied pattern with a concrete well-formed regex. -/
def literalSearch (pat : String) (s : String) : Option String :=
  if hasSub (pat.toList) (s.toList) then some pat else none

/-- ASCII model of the Python str.strip method with no argument: remove
leading and trailing whitespace. -/
def pyStrip (s : String) : String :=
  (((s.toList.dropWhile isPySpace).reverse.dropWhile isPySpace).reverse).asString

/-! ## Program embedding: analyze_log_file and main of main.py -/

/-- One record of the result table: the Python dict built per line, an
association list from field name to optional extracted string, in
insertion order. -/
abbrev Rec : Type := List (String × Option String)

/-- The user-supplied regex, abstracted: its raw text (the code tests the
truthiness of this string) and its compilation outcome in the re module,
either a compile error (malformed pattern) or a search function returning
group 0 of the first match. -/
structure PyRegex : Type where
  raw : String
  compiled : Except Unit (String → Option String)

/-- Body of the per-line loop of analyze_log_file, main.py lines 51 to 82:
build the entry dict for one line. A malformed active custom pattern makes
re.search raise at this point, modelled by the error case. -/
def extractEntry (line : String) (pat : Option PyRegex)
    (ip ec ua : Bool) : Except Unit Rec := do
  let base : Rec := [("log_entry", some (pyStrip line))]
  let withPat : Rec ←
    match pat with
    | some p =>
      if p.raw = "" then pure base
      else
        match p.compiled with
        | Except.error e => Except.error e
        | Except.ok f => pure (base ++ [("pattern_match", f line)])
    | none => pure base
  let withIp : Rec := if ip then withPat ++ [("ip_address", pyIpSearch line)] else withPat
  let withEc : Rec := if ec then withIp ++ [("error_code", pyErrSearch line)] else withIp
  let withUa : Rec := if ua then withEc ++ [("user_agent", pyUaSearch line)] else withEc
  pure withUa

/-- The custom matcher that is actually active for a given pattern
argument: none when no pattern was supplied or its text is empty (falsy),
otherwise the compiled search function when compilation succeeded. -/
def matcherOf : Option PyRegex → Option (String → Option String)
  | none => none
  | some p => if p.raw = "" then none else p.compiled.toOption

/-- A pattern argument that never raises in the loop: absent, falsy, or
compiled successfully. -/
def WellFormed : Option PyRegex → Prop
  | none => True
  | some p => p.raw = "" ∨ ∃ f, p.compiled = Except.ok f

/-- Total per-line extraction for a well-formed configuration, with cm the
active custom matcher. -/
def extractFields (line : String) (cm : Option (String → Option String))
    (ip ec ua : Bool) : Rec :=
  let base : Rec := [("log_entry", some (pyStrip line))]
  let withPat : Rec :=
    match cm with
    | some f => base ++ [("pattern_match", f line)]
    | none => base
  let withIp : Rec := if ip then withPat ++ [("ip_address", pyIpSearch line)] else withPat
  let withEc : Rec := if ec then withIp ++ [("error_code", pyErrSearch line)] else withIp
  let withUa : Rec := if ua then withEc ++ [("user_agent", pyUaSearch line)] else withEc
  withUa

/-- Python slice lines[:l] for an Int bound: nonnegative bounds take a
prefix, negative bounds count from the end. -/
def pySliceTo (l : Int) (xs : List String) : List String :=
  if 0 ≤ l then xs.take l.toNat else xs.take (Int.toNat ((xs.length : Int) + l))

/-- Lines retained after the limit test of main.py lines 46 to 47: the
Python conditional is on the truthiness of limit, so None and 0 keep every
line. -/
def applyLimit (limit : Option Int) (xs : List String) : List String :=
  match limit with
  | some l => if l = 0 then xs else pySliceTo l xs
  | none => xs

/-- Embedding of analyze_log_file, main.py lines 27 to 92. The source is
none when the file cannot be opened (FileNotFoundError and kindred open
errors) and some lines when readlines succeeds. Returns the result table
together with a flag recording whether one of the two except blocks logged
an error; in the error case the table is empty, as in the code. -/
def analyze_log_file (source : Option (List String)) (pat : Option PyRegex)
    (limit : Option Int) (ip ec ua : Bool) : List Rec × Bool :=
  match source with
  | none => ([], true)
  | some lines =>
    match (applyLimit limit lines).mapM (fun l => extractEntry l pat ip ec ua) with
    | Except.error _ => ([], true)
    | Except.ok t => (t, false)

/-- Observable outcome of one invocation of main, main.py lines 95 to 130:
the table produced, whether an error was logged, the CSV destination
written (none when no file was written), whether the no-data warning was
logged, and whether the table was printed to the console. -/
structure RunOutcome : Type where
  table : List Rec
  errorLogged : Bool
  csvWritten : Option String
  warned : Bool
  printed : Bool
deriving DecidableEq

/-- Invalid limit test of main.py line 112: a supplied limit that is not
strictly positive. -/
def limitBad : Option Int → Bool
  | some l => decide (l ≤ 0)
  | none => false

/-- Embedding of main, main.py lines 95 to 130: validate the limit, run
analyze_log_file, then either write the CSV, print the table, or warn that
there is no data. The isinstance checks on the path arguments always pass
in a typed model. -/
def mainRun (source : Option (List String)) (pat : Option PyRegex)
    (limit : Option Int) (ip ec ua : Bool) (output : Option String) :
    RunOutcome :=
  if limitBad limit then
    { table := [], errorLogged := true, csvWritten := none,
      warned := false, printed := false }
  else
    let r := analyze_log_file source pat limit ip ec ua
    if r.1.isEmpty then
      { table := r.1, errorLogged := r.2, csvWritten := none,
        warned := true, printed := false }
    else
      match output with
      | some path =>
        { table := r.1, errorLogged := r.2, csvWritten := some path,
          warned := false, printed := false }
      | none =>
        { table := r.1, errorLogged := r.2, csvWritten := none,
          warned := false, printed := true }

/-- Field names of a record, in insertion order. -/
def recKeys (r : Rec) : List String := r.map Prod.fst

/-- The column set determined by the active rules alone, before any line
is processed. -/
def expectedKeys (patActive ip ec ua : Bool) : List String :=
  ["log_entry"] ++
  (if patActive then ["pattern_match"] else []) ++
  (if ip then ["ip_address"] else []) ++
  (if ec then ["error_code"] else []) ++
  (if ua then ["user_agent"] else [])

/-! ## Specification-side definitions

These follow the words of the specification and of the claims, to be
compared with the code-side embeddings above. -/

/-- Specification reading of the error-code rule at one position: the
literal token ERROR, followed by whitespace (at least one character), then
one or more digits; the digit sequence, not including the word ERROR, is
the value. -/
def specErrAt (u : List Char) : Option (List Char) :=
  match dropLit ("ERROR".toList) u with
  | none => none
  | some v =>
    if (v.takeWhile isPySpace).isEmpty
        || (dRun (v.drop (countP isPySpace v))).isEmpty then none
    else some (dRun (v.drop (countP isPySpace v)))

/-- Specification reading of the error-code rule on a line: the value at
the first position where the composite token occurs. -/
def specErr (s : String) : Option String :=
  (reSearch (fun _ u => specErrAt u) s.toList).map List.asString

/-- Longest-first extent candidates at a position: the whole suffix first,
down to length one. -/
def jCands (u : List Char) : List Nat := downFrom u.length

/-- Specification reading of the IPv4 rule at one position, as amended: a
substring that matches the dotted-quad grammar and is delimited by word
boundaries on both sides; at a given position the longest such extent is
taken first. -/
def quadAt (prev : Option Char) (u : List Char) : Option (List Char) :=
  if bdy prev u.head? then
    tryLens (fun j =>
      if isQuad (u.take j) && bdy ((u.take j).getLast?) ((u.drop j).head?) then
        some (u.take j)
      else none)
      (jCands u)
  else none

/-- The first word-boundary-delimited dotted-quad substring of a line,
scanning positions left to right: the amended specification reading of the
IPv4 rule. -/
def specIp (s : String) : Option String :=
  (reSearch quadAt s.toList).map List.asString

/-- Literal reading of claim C2 at one position, with no word-boundary
condition: any extent matching the dotted-quad grammar, longest first. -/
def quadAtNoB (u : List Char) : Option (List Char) :=
  tryLens (fun j => if isQuad (u.take j) then some (u.take j) else none)
    (jCands u)

/-- Literal reading of claim C2 on a line: the first substring, scanning
positions left to right, that matches the dotted-quad grammar. -/
def firstQuadSub (s : String) : Option String :=
  (reSearch (fun _ u => quadAtNoB u) s.toList).map List.asString

/-- Literal reading of claim C4 on a line: for the first occurrence of the
literal token User-Agent:, the remainder of the line after the colon and
any immediately following whitespace, stored verbatim; null when the token
does not occur. -/
def specUaLit (s : String) : Option String :=
  match firstOcc ("User-Agent:".toList) s.toList with
  | none => none
  | some rest => some ((rest.dropWhile isPySpace).asString)

/-- Remove one trailing newline, if present. -/
def chompNl (r : List Char) : List Char :=
  match r.getLast? with
  | some c => if c = '\n' then r.dropLast else r
  | none => r

/-- Amended specification reading of the user-agent rule on a line with no
interior newline. For the first occurrence of the literal token
User-Agent:, with rest the remainder after the colon and core the same
remainder without its trailing newline: null when the token does not occur
or core is empty; otherwise the remainder of core after any immediately
following whitespace when that is nonempty; otherwise (core entirely
whitespace) the last whitespace character of core. -/
def uaAmCore (rest : List Char) : Option (List Char) :=
  if (chompNl rest).isEmpty then none
  else if ((chompNl rest).dropWhile isPySpace).isEmpty then
    some [(chompNl rest).getLastD ' ']
  else some ((chompNl rest).dropWhile isPySpace)

/-- Amended specification reading of the user-agent rule on a line, pieced
together from the remainder after the first occurrence of the token. -/
def specUaAm (s : String) : Option String :=
  match firstOcc ("User-Agent:".toList) s.toList with
  | none => none
  | some rest => (uaAmCore rest).map List.asString

/-- A string with no newline before its final character: the shape of every
line produced by readlines. -/
def NoInnerNl (s : String) : Prop :=
  ∀ c ∈ s.toList.dropLast, c ≠ '\n'

/-! ## General lemmas on the scanning utilities -/

theorem tryLens_none {α : Type} (f : Nat → Option α) (L : List Nat)
    (h : ∀ l ∈ L, f l = none) : tryLens f L = none := by
  induction L with
  | nil => rfl
  | cons x xs ih =>
    simp only [tryLens, h x (by simp)]
    exact ih (fun l hl => h l (by simp [hl]))

theorem mem_downFrom {k m : Nat} : k ∈ downFrom m ↔ 1 ≤ k ∧ k ≤ m := by
  induction m with
  | zero => simp [downFrom]; omega
  | succ n ih => simp [downFrom, ih]; omega

theorem searchAux_congr {α : Type}
    (m₁ m₂ : Option Char → List Char → Option α)
    (h : ∀ p u, m₁ p u = m₂ p u) :
    ∀ p s, searchAux m₁ p s = searchAux m₂ p s := by
  intro p s
  induction s generalizing p with
  | nil => simp [searchAux, h]
  | cons c rest ih => simp only [searchAux, h, ih]

theorem drop_head_of_lt_countP {p : Char → Bool} {v : List Char} {k : Nat}
    (h : k < countP p v) : ∃ c, (v.drop k).head? = some c ∧ p c := by
  induction v generalizing k with
  | nil => simp [countP] at h
  | cons x xs ih =>
    by_cases hx : p x
    · cases k with
      | zero => exact ⟨x, rfl, hx⟩
      | succ n =>
        simp only [countP, List.takeWhile_cons, hx, List.length_cons] at h
        exact ih (by simpa [countP] using Nat.lt_of_succ_lt_succ h)
    · simp [countP, List.takeWhile_cons, hx] at h

theorem dropLit_nil (u : List Char) : dropLit [] u = some u := rfl

theorem dropLit_eq_some {p u v : List Char} (h : dropLit p u = some v) :
    u = p ++ v := by
  induction p generalizing u with
  | nil => simpa [dropLit] using h
  | cons a as ih =>
    cases u with
    | nil => simp [dropLit] at h
    | cons c cs =>
      by_cases hac : a = c
      · subst hac
        simp only [dropLit, if_pos rfl] at h
        simpa using ih h
      · simp [dropLit, hac] at h

/-! ## Pointwise equivalence for the IPv4 pattern -/

theorem char_eq_of_toNat {a b : Char} (h : a.toNat = b.toNat) : a = b :=
  Char.eq_of_val_eq (UInt32.ext h)

theorem char_eq_iff_toNat {a b : Char} : a = b ↔ a.toNat = b.toNat :=
  ⟨fun h => h ▸ rfl, char_eq_of_toNat⟩

theorem isDig_iff {a : Char} :
    isDig a = true ↔ 48 ≤ a.toNat ∧ a.toNat ≤ 57 := by
  unfold isDig
  rw [Bool.and_eq_true, decide_eq_true_eq, decide_eq_true_eq]
  exact ⟨fun h => ⟨h.1, h.2⟩, fun h => ⟨h.1, h.2⟩⟩

theorem digitsVal_one (x : Char) : digitsVal [x] = x.toNat - 48 := by
  simp [digitsVal]

theorem digitsVal_two (x y : Char) :
    digitsVal [x, y] = 10 * (x.toNat - 48) + (y.toNat - 48) := by
  simp [digitsVal]

theorem digitsVal_three (x y z : Char) :
    digitsVal [x, y, z] =
      10 * (10 * (x.toNat - 48) + (y.toNat - 48)) + (z.toNat - 48) := by
  simp [digitsVal]

theorem octOk_one {x : Char} (hx : isDig x = true) : octOk [x] = true := by
  obtain ⟨h1, h2⟩ := isDig_iff.mp hx
  simp [octOk, hx, digitsVal_one]
  omega

theorem octOk_two {x y : Char} (hx : isDig x = true) (hy : isDig y = true) :
    octOk [x, y] = true := by
  obtain ⟨hx1, hx2⟩ := isDig_iff.mp hx
  obtain ⟨hy1, hy2⟩ := isDig_iff.mp hy
  simp [octOk, hx, hy, digitsVal_two]
  omega

/-- The three-digit octet alternatives of the pattern accept exactly the
values up to 255. -/
theorem octOk_three {x y z : Char} (hx : isDig x = true)
    (hy : isDig y = true) (hz : isDig z = true) :
    octOk [x, y, z] = true ↔
      (x = '2' ∧ y = '5' ∧ ('0' ≤ z ∧ z ≤ '5')) ∨
      (x = '2' ∧ ('0' ≤ y ∧ y ≤ '4')) ∨
      (x = '0' ∨ x = '1') := by
  obtain ⟨hx1, hx2⟩ := isDig_iff.mp hx
  obtain ⟨hy1, hy2⟩ := isDig_iff.mp hy
  obtain ⟨hz1, hz2⟩ := isDig_iff.mp hz
  have cx2 : (x = '2') ↔ x.toNat = 50 := char_eq_iff_toNat
  have cx0 : (x = '0') ↔ x.toNat = 48 := char_eq_iff_toNat
  have cx1 : (x = '1') ↔ x.toNat = 49 := char_eq_iff_toNat
  have cy5 : (y = '5') ↔ y.toNat = 53 := char_eq_iff_toNat
  have cz0 : ('0' ≤ z) ↔ 48 ≤ z.toNat := Iff.rfl
  have cz5 : (z ≤ '5') ↔ z.toNat ≤ 53 := Iff.rfl
  have cy0 : ('0' ≤ y) ↔ 48 ≤ y.toNat := Iff.rfl
  have cy4 : (y ≤ '4') ↔ y.toNat ≤ 52 := Iff.rfl
  rw [cx2, cx0, cx1, cy5, cz0, cz5, cy0, cy4]
  have hval : octOk [x, y, z] = true ↔
      10 * (10 * (x.toNat - 48) + (y.toNat - 48)) + (z.toNat - 48) ≤ 255 := by
    simp only [octOk, Bool.and_eq_true, decide_eq_true_eq]
    rw [digitsVal_three]
    constructor
    · intro h
      exact h.2
    · intro h
      exact ⟨⟨⟨by simp, by simp⟩, by simp [List.all_cons, hx, hy, hz]⟩, h⟩
  rw [hval]
  omega

theorem a01_dig {a : Char} (h : a = '0' ∨ a = '1') : isDig a = true := by
  rcases h with h | h <;> subst h <;> decide

theorem dig_of_le5 {c : Char} (h1 : '0' ≤ c) (h2 : c ≤ '5') :
    isDig c = true := by
  refine isDig_iff.mpr ⟨h1, ?_⟩
  have h3 : c.toNat ≤ 53 := h2
  omega

theorem dig_of_le4 {c : Char} (h1 : '0' ≤ c) (h2 : c ≤ '4') :
    isDig c = true := by
  refine isDig_iff.mpr ⟨h1, ?_⟩
  have h3 : c.toNat ≤ 52 := h2
  omega

/-- Every candidate length of the octet alternation is between one and
three, fits in the list, and covers only digits. -/
theorem mem_octLens {w : List Char} {l : Nat} (h : l ∈ octLens w) :
    1 ≤ l ∧ l ≤ 3 ∧ l ≤ w.length ∧ (w.take l).all isDig = true := by
  unfold octLens at h
  cases w with
  | nil => simp [octAlt1, octAlt2, octAlt3a, octAlt3b, octAlt3c, octAlt3d] at h
  | cons a w1 =>
    cases w1 with
    | nil =>
      simp [octAlt1, octAlt2, octAlt3a, octAlt3b, octAlt3c, octAlt3d] at h
      obtain ⟨hda, rfl⟩ := h
      exact ⟨le_refl 1, by omega, by simp, by simp [hda]⟩
    | cons b w2 =>
      cases w2 with
      | nil =>
        simp [octAlt1, octAlt2, octAlt3a, octAlt3b, octAlt3c, octAlt3d] at h
        rcases h with ⟨⟨h01, hdb⟩, rfl⟩ | ⟨⟨hda, hdb⟩, rfl⟩ | ⟨hda, rfl⟩
        · exact ⟨by omega, by omega, by simp, by simp [a01_dig h01, hdb]⟩
        · exact ⟨by omega, by omega, by simp, by simp [hda, hdb]⟩
        · exact ⟨le_refl 1, by omega, by simp, by simp [hda]⟩
      | cons c w3 =>
        simp [octAlt1, octAlt2, octAlt3a, octAlt3b, octAlt3c, octAlt3d] at h
        rcases h with ⟨⟨⟨h2, h5⟩, hc0, hc5⟩, rfl⟩ |
          ⟨⟨⟨h2, hb0, hb4⟩, hdc⟩, rfl⟩ |
          ⟨⟨⟨h01, hdb⟩, hdc⟩, rfl⟩ | ⟨⟨h01, hdb⟩, rfl⟩ | ⟨⟨hda, hdb⟩, rfl⟩ |
          ⟨hda, rfl⟩
        · subst h2
          subst h5
          refine ⟨by omega, by omega, by simp, ?_⟩
          simp [dig_of_le5 hc0 hc5]
          decide
        · subst h2
          refine ⟨by omega, by omega, by simp, ?_⟩
          simp [dig_of_le4 hb0 hb4, hdc]
          decide
        · exact ⟨by omega, by omega, by simp,
            by simp [a01_dig h01, hdb, hdc]⟩
        · exact ⟨by omega, by omega, by simp,
            by simp [a01_dig h01, hdb]⟩
        · exact ⟨by omega, by omega, by simp, by simp [hda, hdb]⟩
        · exact ⟨le_refl 1, by omega, by simp, by simp [hda]⟩

theorem dRun_cons {w t : List Char} {x : Char} (h : dRun w = x :: t) :
    ∃ w1, w = x :: w1 ∧ isDig x = true ∧ dRun w1 = t := by
  cases w with
  | nil => simp [dRun] at h
  | cons a w1 =>
    unfold dRun at h
    rw [List.takeWhile_cons] at h
    by_cases hda : isDig a
    · rw [if_pos hda] at h
      injection h with h1 h2
      subst h1
      exact ⟨w1, rfl, hda, h2⟩
    · simp [hda] at h

/-- When the maximal digit run is a valid octet, its full length is one of
the candidate lengths of the alternation. -/
theorem run_mem_octLens {w : List Char} (hok : octOk (dRun w) = true) :
    (dRun w).length ∈ octLens w := by
  cases h1 : dRun w with
  | nil =>
    rw [h1] at hok
    simp [octOk] at hok
  | cons x t1 =>
    obtain ⟨w1, rfl, hdx, ht1⟩ := dRun_cons h1
    cases h2 : t1 with
    | nil =>
      subst h2
      simp [octLens, List.mem_append, octAlt3d, hdx]
    | cons y t2 =>
      subst h2
      obtain ⟨w2, rfl, hdy, ht2⟩ := dRun_cons ht1
      cases h3 : t2 with
      | nil =>
        subst h3
        simp [octLens, List.mem_append, octAlt3c, hdx, hdy]
      | cons z t3 =>
        subst h3
        obtain ⟨w3, rfl, hdz, ht3⟩ := dRun_cons ht2
        rw [h1] at hok
        have hlen : (x :: y :: z :: t3).length ≤ 3 := by
          simp only [octOk, Bool.and_eq_true, decide_eq_true_eq] at hok
          exact hok.1.1.2
        have ht3nil : t3 = [] := by
          simp only [List.length_cons] at hlen
          exact List.eq_nil_of_length_eq_zero (by omega)
        subst ht3nil
        rcases (octOk_three hdx hdy hdz).mp hok with
          ⟨hx2, hy5, hz0, hz5⟩ | ⟨hx2, hb0, hb4⟩ | h01
        · subst hx2
          subst hy5
          simp [octLens, List.mem_append, octAlt1, hz0, hz5]
        · subst hx2
          simp [octLens, List.mem_append, octAlt2, hb0, hb4, hdz]
        · simp [octLens, List.mem_append, octAlt3a, h01, hdy, hdz]

/-- Backtracking over candidates with a filter check that at most one
candidate can pass: the scan returns the continuation at that candidate
exactly when it is present and passes. -/
theorem tryLens_filter {α : Type} (L : List Nat) (chk : Nat → Prop)
    [DecidablePred chk] (k : Nat → Option α) (l₀ : Nat)
    (huniq : ∀ l ∈ L, chk l → l = l₀) :
    tryLens (fun l => if chk l then k l else none) L =
      if l₀ ∈ L ∧ chk l₀ then k l₀ else none := by
  induction L with
  | nil => simp [tryLens]
  | cons x xs ih =>
    have ih2 := ih (fun l hl hc => huniq l (List.mem_cons_of_mem x hl) hc)
    by_cases hchk : chk x
    · have hx0 : x = l₀ := huniq x (List.mem_cons_self x xs) hchk
      subst hx0
      simp only [tryLens, if_pos hchk]
      cases hk : k x with
      | some r =>
        rw [if_pos ⟨List.mem_cons_self x xs, hchk⟩]
      | none =>
        rw [ih2]
        by_cases hmem : x ∈ xs
        · simp [hmem, hchk, hk]
        · simp [hmem, hchk, hk]
    · simp only [tryLens, if_neg hchk]
      rw [ih2]
      by_cases hmem : l₀ ∈ xs
      · simp [hmem]
      · by_cases heq : l₀ = x
        · subst heq
          simp [hmem, hchk]
        · simp [hmem, hchk, heq]

theorem word_of_dig {c : Char} (h : isDig c = true) : isWordChar c = true := by
  simp [isWordChar, h]

theorem dRun_all (w : List Char) : (dRun w).all isDig = true :=
  List.all_eq_true.mpr fun _ hx => List.mem_takeWhile_imp hx

theorem dRun_take (w : List Char) : w.take (dRun w).length = dRun w :=
  (List.prefix_iff_eq_take.mp (List.takeWhile_prefix _)).symm

/-- A block of digits whose right edge is not a word character is exactly
the maximal digit run. -/
theorem dRun_len_eq {w : List Char} {l : Nat}
    (hall : (w.take l).all isDig = true) (hl : l ≤ w.length)
    (hstop : isWordO ((w.drop l).head?) = false) : (dRun w).length = l := by
  cases hd : (w.drop l).head? with
  | none =>
    have hnil : w.drop l = [] := by
      cases hq : w.drop l with
      | nil => rfl
      | cons a t => rw [hq] at hd; simp at hd
    have hlen : l = w.length := by
      have := congrArg List.length hnil
      simp at this
      omega
    have htw : w.take l = w := by
      rw [hlen]
      exact List.take_length w
    unfold dRun
    rw [List.takeWhile_eq_self_iff.mpr (List.all_eq_true.mp (htw ▸ hall))]
    omega
  | some ch =>
    have hch : isDig ch = false := by
      rw [hd] at hstop
      simp only [isWordO] at hstop
      cases hq : isDig ch with
      | false => rfl
      | true => rw [word_of_dig hq] at hstop; simp at hstop
    obtain ⟨t, ht⟩ : ∃ t, w.drop l = ch :: t := by
      cases hq : w.drop l with
      | nil => rw [hq] at hd; simp at hd
      | cons a t =>
        rw [hq] at hd
        simp only [List.head?_cons, Option.some.injEq] at hd
        exact ⟨t, by rw [hd]⟩
    have hw : w = w.take l ++ (ch :: t) := by
      rw [← ht]
      exact (List.take_append_drop l w).symm
    have hlt : l < w.length := by
      have := congrArg List.length ht
      simp at this
      omega
    unfold dRun
    conv_lhs => rw [hw]
    rw [List.takeWhile_append_of_pos (List.all_eq_true.mp hall),
      List.takeWhile_cons, hch]
    simp
    omega

/-- The left piece of the backtracking: only the maximal digit run can be
a candidate length whose right edge is not a word character. -/
theorem uniq_candidate {w : List Char} {l : Nat} (hmem : l ∈ octLens w)
    (hstop : isWordO ((w.drop l).head?) = false) : l = (dRun w).length := by
  obtain ⟨h1, h3, hlen, hall⟩ := mem_octLens hmem
  exact (dRun_len_eq hall hlen hstop).symm

/-- Membership of the full run length in the candidate lengths is exactly
octet validity of the run. -/
theorem mem_run_iff_octOk {w : List Char} :
    (dRun w).length ∈ octLens w ↔ octOk (dRun w) = true := by
  constructor
  · intro h
    cases hr : dRun w with
    | nil =>
      obtain ⟨h1, _, _, _⟩ := mem_octLens h
      rw [hr] at h1
      simp at h1
    | cons x t1 =>
      obtain ⟨w1, hw1, hdx, ht1⟩ := dRun_cons hr
      cases h2 : t1 with
      | nil => exact octOk_one hdx
      | cons y t2 =>
        subst h2
        obtain ⟨w2, hw2, hdy, ht2⟩ := dRun_cons ht1
        cases h3 : t2 with
        | nil => exact octOk_two hdx hdy
        | cons z t3 =>
          subst h3
          obtain ⟨w3, hw3, hdz, ht3⟩ := dRun_cons ht2
          subst hw1
          subst hw2
          subst hw3
          have hlen := (mem_octLens h).2.1
          rw [hr] at hlen
          simp only [List.length_cons] at hlen
          have ht3nil : t3 = [] := List.eq_nil_of_length_eq_zero (by omega)
          subst ht3nil
          rw [hr] at h
          simp [octLens, List.mem_append, octAlt1, octAlt2, octAlt3a,
            octAlt3b, octAlt3c, octAlt3d] at h
          refine (octOk_three hdx hdy hdz).mpr ?_
          rcases h with ⟨⟨h2, h5⟩, hc0, hc5⟩ | ⟨⟨h2, hb0, hb4⟩, _⟩ |
            ⟨⟨h01, _⟩, _⟩
          · exact Or.inl ⟨h2, h5, hc0, hc5⟩
          · exact Or.inr (Or.inl ⟨h2, hb0, hb4⟩)
          · exact Or.inr (Or.inr h01)
  · exact run_mem_octLens

theorem octOk_pos {g : List Char} (h : octOk g = true) : 1 ≤ g.length := by
  simp only [octOk, Bool.and_eq_true] at h
  cases g with
  | nil => simp at h
  | cons a t => simp

theorem octOk_digits {g : List Char} (h : octOk g = true) :
    g.all isDig = true := by
  simp only [octOk, Bool.and_eq_true] at h
  exact h.1.2

theorem bdy_of_word {a : Option Char} (ha : isWordO a = true)
    (b : Option Char) : bdy a b = !(isWordO b) := by
  rw [bdy, ha]
  cases isWordO b <;> rfl

theorem getLast_take_word {u : List Char} {p l : Nat}
    (h1 : 1 ≤ l) (hlen : l ≤ (u.drop p).length)
    (hall : ((u.drop p).take l).all isDig = true) :
    isWordO ((u.take (p + l)).getLast?) = true := by
  have htk : u.take (p + l) = u.take p ++ (u.drop p).take l := List.take_add u p l
  have hne : (u.drop p).take l ≠ [] := by
    intro hq
    have hq2 : ((u.drop p).take l).length = 0 := by rw [hq]; rfl
    rw [List.length_take] at hq2
    omega
  rw [htk, List.getLast?_append_of_ne_nil _ hne]
  cases hgl : ((u.drop p).take l).getLast? with
  | none =>
    cases hq : (u.drop p).take l with
    | nil => exact absurd hq hne
    | cons a t =>
      rw [hq] at hgl
      simp [List.getLast?] at hgl
  | some d =>
    have hd : isDig d = true :=
      List.all_eq_true.mp hall d (List.mem_of_mem_getLast? hgl)
    simp [isWordO, word_of_dig hd]

/-- Backtracking step for one octet followed by a literal dot, based at
offset p: it consumes exactly the maximal digit run when that run is a
valid octet with a dot after it, and fails otherwise. -/
theorem step_dot {α : Type} (u : List Char) (p : Nat) (k : Nat → Option α) :
    tryLens (fun l => if (u.drop (p + l)).head? = some '.' then k l else none)
      (octLens (u.drop p)) =
      if octOk (dRun (u.drop p)) = true ∧
          (u.drop (p + (dRun (u.drop p)).length)).head? = some '.' then
        k (dRun (u.drop p)).length
      else none := by
  have hsw : ∀ l : Nat, u.drop (p + l) = (u.drop p).drop l := fun l =>
    (List.drop_drop l p u).symm
  simp only [hsw]
  rw [tryLens_filter (octLens (u.drop p))
    (fun l => ((u.drop p).drop l).head? = some '.') k
    (dRun (u.drop p)).length
    (fun l hl hdot => uniq_candidate hl (by rw [hdot]; rfl))]
  exact if_congr (and_congr_left' mem_run_iff_octOk) rfl rfl

/-- The variant of step_dot based at the start of the string. -/
theorem step_dot0 {α : Type} (u : List Char) (k : Nat → Option α) :
    tryLens (fun l => if (u.drop l).head? = some '.' then k l else none)
      (octLens u) =
      if octOk (dRun u) = true ∧
          (u.drop (dRun u).length).head? = some '.' then
        k (dRun u).length
      else none := by
  have h := step_dot u 0 k
  simpa using h

/-- Backtracking step for the final octet followed by the trailing word
boundary: since the character before the boundary is a digit, the boundary
holds exactly when the character after the run is not a word character. -/
theorem step_end (u : List Char) (p : Nat) :
    tryLens (fun l =>
        if bdy ((u.take (p + l)).getLast?) ((u.drop (p + l)).head?) = true
        then some (p + l) else none)
      (octLens (u.drop p)) =
      if octOk (dRun (u.drop p)) = true ∧
          isWordO ((u.drop (p + (dRun (u.drop p)).length)).head?) = false then
        some (p + (dRun (u.drop p)).length)
      else none := by
  have huniq : ∀ l ∈ octLens (u.drop p),
      bdy ((u.take (p + l)).getLast?) ((u.drop (p + l)).head?) = true →
      l = (dRun (u.drop p)).length := by
    intro l hl hb
    obtain ⟨h1, _, hlen, hall⟩ := mem_octLens hl
    rw [bdy_of_word (getLast_take_word h1 hlen hall)] at hb
    have hstop : isWordO (((u.drop p).drop l).head?) = false := by
      rw [List.drop_drop l p u]
      cases hq : isWordO ((u.drop (p + l)).head?) with
      | false => rfl
      | true => rw [hq] at hb; simp at hb
    exact uniq_candidate hl hstop
  rw [tryLens_filter (octLens (u.drop p))
    (fun l => bdy ((u.take (p + l)).getLast?) ((u.drop (p + l)).head?) = true)
    (fun l => some (p + l)) (dRun (u.drop p)).length huniq]
  refine if_congr (Iff.trans (and_congr_left' mem_run_iff_octOk) ?_) rfl rfl
  refine and_congr_right fun hok => ?_
  have h1 : 1 ≤ (dRun (u.drop p)).length := octOk_pos hok
  have hlen : (dRun (u.drop p)).length ≤ (u.drop p).length :=
    List.IsPrefix.length_le (List.takeWhile_prefix _)
  have hall : ((u.drop p).take (dRun (u.drop p)).length).all isDig = true := by
    rw [dRun_take]
    exact dRun_all _
  rw [bdy_of_word (getLast_take_word h1 hlen hall)]
  cases isWordO ((u.drop (p + (dRun (u.drop p)).length)).head?) with
  | false => simp
  | true => simp

/-- The backtracking of the IPv4 pattern body is deterministic: it
computes the run-based normal form. -/
theorem matchIpFrom_eq (u : List Char) : matchIpFrom u = specFrom u := by
  unfold matchIpFrom specFrom specFrom3 specFrom2 specEnd
  rw [step_dot0 u]
  rw [step_dot u]
  rw [step_dot u]
  rw [step_end u]

theorem splitDots_ne_nil (t : List Char) : splitDots t ≠ [] := by
  cases t with
  | nil => simp [splitDots]
  | cons c rest =>
    by_cases hc : c = '.'
    · simp [splitDots, hc]
    · simp only [splitDots, if_neg hc]
      cases splitDots rest <;> simp

theorem splitDots_join (t : List Char) : joinDots (splitDots t) = t := by
  induction t with
  | nil => rfl
  | cons c rest ih =>
    by_cases hc : c = '.'
    · subst hc
      have hsplit : splitDots ('.' :: rest) = [] :: splitDots rest := by
        simp [splitDots]
      rw [hsplit]
      cases hq : splitDots rest with
      | nil => exact absurd hq (splitDots_ne_nil rest)
      | cons g gs =>
        show '.' :: joinDots (g :: gs) = '.' :: rest
        rw [← hq, ih]
    · have hstep : splitDots (c :: rest) =
          match splitDots rest with
          | g :: gs => (c :: g) :: gs
          | [] => [[c]] := by
        simp [splitDots, hc]
      rw [hstep]
      cases hq : splitDots rest with
      | nil => exact absurd hq (splitDots_ne_nil rest)
      | cons g gs =>
        rw [hq] at ih
        cases gs with
        | nil =>
          show c :: g = c :: rest
          rw [show g = rest from ih]
        | cons g2 gs2 =>
          show c :: (g ++ '.' :: joinDots (g2 :: gs2)) = c :: rest
          rw [show g ++ '.' :: joinDots (g2 :: gs2) = rest from ih]

theorem dig_ne_dot {c : Char} (h : isDig c = true) : c ≠ '.' := by
  intro hq
  subst hq
  simp [isDig] at h

theorem splitDots_dotfree {g : List Char} (hg : ∀ c ∈ g, c ≠ '.') :
    splitDots g = [g] := by
  induction g with
  | nil => rfl
  | cons c rest ih =>
    have hc : c ≠ '.' := hg c (by simp)
    simp only [splitDots, if_neg hc]
    rw [ih (fun x hx => hg x (by simp [hx]))]

theorem splitDots_append {g rest : List Char} (hg : ∀ c ∈ g, c ≠ '.') :
    splitDots (g ++ '.' :: rest) = g :: splitDots rest := by
  induction g with
  | nil => simp [splitDots]
  | cons c t ih =>
    have hc : c ≠ '.' := hg c (by simp)
    have hassoc : (c :: t) ++ '.' :: rest = c :: (t ++ '.' :: rest) := rfl
    rw [hassoc]
    have hstep : splitDots (c :: (t ++ '.' :: rest)) =
        match splitDots (t ++ '.' :: rest) with
        | g :: gs => (c :: g) :: gs
        | [] => [[c]] := by
      simp [splitDots, hc]
    rw [hstep, ih (fun x hx => hg x (by simp [hx]))]

theorem drop_eq_cons {u : List Char} {n : Nat} {c : Char}
    (h : (u.drop n).head? = some c) : u.drop n = c :: u.drop (n + 1) := by
  cases hq : u.drop n with
  | nil => rw [hq] at h; simp at h
  | cons a t =>
    rw [hq] at h
    simp only [List.head?_cons, Option.some.injEq] at h
    subst h
    have ht : t = (u.drop n).tail := by rw [hq]; rfl
    rw [ht, List.tail_drop]

/-- Peel one octet and its dot off the normal form: the suffix at p splits
as the maximal run, the dot, and the suffix after the dot. -/
theorem peel_run {u : List Char} {p : Nat}
    (hdot : (u.drop (p + (dRun (u.drop p)).length)).head? = some '.') :
    u.drop p =
      dRun (u.drop p) ++ '.' :: u.drop (p + (dRun (u.drop p)).length + 1) := by
  have h1 : u.drop p =
      dRun (u.drop p) ++ (u.drop p).drop (dRun (u.drop p)).length := by
    conv_lhs =>
      rw [← List.take_append_drop ((dRun (u.drop p)).length) (u.drop p)]
    rw [dRun_take]
  have h2 : (u.drop p).drop (dRun (u.drop p)).length =
      u.drop (p + (dRun (u.drop p)).length) :=
    List.drop_drop _ p u
  have h3 := drop_eq_cons hdot
  conv_lhs => rw [h1, h2, h3]

/-- Peel the final octet off the normal form. -/
theorem peel_end {u : List Char} {p : Nat} :
    u.drop p = dRun (u.drop p) ++ u.drop (p + (dRun (u.drop p)).length) := by
  have h1 : u.drop p =
      dRun (u.drop p) ++ (u.drop p).drop (dRun (u.drop p)).length := by
    conv_lhs =>
      rw [← List.take_append_drop ((dRun (u.drop p)).length) (u.drop p)]
    rw [dRun_take]
  have h2 : (u.drop p).drop (dRun (u.drop p)).length =
      u.drop (p + (dRun (u.drop p)).length) :=
    List.drop_drop _ p u
  conv_lhs => rw [h1, h2]

theorem dRun_append_dot {g r : List Char} (hg : g.all isDig = true) :
    dRun (g ++ '.' :: r) = g := by
  unfold dRun
  rw [List.takeWhile_append_of_pos (List.all_eq_true.mp hg),
    List.takeWhile_cons]
  simp [isDig]

theorem dRun_append_stop {g r : List Char} (hg : g.all isDig = true)
    (hr : isWordO r.head? = false) : dRun (g ++ r) = g := by
  unfold dRun
  rw [List.takeWhile_append_of_pos (List.all_eq_true.mp hg)]
  cases r with
  | nil => simp
  | cons a t =>
    have ha : isDig a = false := by
      cases hq : isDig a with
      | false => rfl
      | true =>
        rw [show isWordO (a :: t).head? = true by
          simp [isWordO, word_of_dig hq]] at hr
        simp at hr
    rw [List.takeWhile_cons, ha]
    simp

theorem getLast_digit {g : List Char} (hne : g ≠ [])
    (hall : g.all isDig = true) : isWordO g.getLast? = true := by
  cases hgl : g.getLast? with
  | none =>
    cases hq : g with
    | nil => exact absurd hq hne
    | cons a t =>
      rw [hq] at hgl
      simp [List.getLast?] at hgl
  | some d =>
    have hd : isDig d = true :=
      List.all_eq_true.mp hall d (List.mem_of_mem_getLast? hgl)
    simp [isWordO, word_of_dig hd]

theorem peel_run0 {u : List Char}
    (hdot : (u.drop (dRun u).length).head? = some '.') :
    u = dRun u ++ '.' :: u.drop ((dRun u).length + 1) := by
  have h := peel_run (u := u) (p := 0) (by simpa using hdot)
  simpa using h

theorem peel_end0 (u : List Char) :
    u = dRun u ++ u.drop (dRun u).length := by
  have h := peel_end (u := u) (p := 0)
  simpa using h

/-- Soundness of the normal form: a successful match at the start of u is
a word-boundary-delimited dotted-quad prefix of exactly that extent. -/
theorem specFrom_sound {u : List Char} {e : Nat} (h : specFrom u = some e) :
    1 ≤ e ∧ e ≤ u.length ∧ isQuad (u.take e) = true ∧
      bdy ((u.take e).getLast?) ((u.drop e).head?) = true := by
  unfold specFrom at h
  by_cases hC1 : octOk (dRun u) = true ∧
      (u.drop (dRun u).length).head? = some '.'
  swap
  · rw [if_neg hC1] at h
    simp at h
  rw [if_pos hC1] at h
  unfold specFrom3 at h
  by_cases hC2 : octOk (dRun (u.drop ((dRun u).length + 1))) = true ∧
      (u.drop ((dRun u).length + 1 +
        (dRun (u.drop ((dRun u).length + 1))).length)).head? = some '.'
  swap
  · rw [if_neg hC2] at h
    simp at h
  rw [if_pos hC2] at h
  unfold specFrom2 at h
  set p1 : Nat := (dRun u).length + 1 with hp1
  set p2 : Nat := p1 + (dRun (u.drop p1)).length + 1 with hp2
  by_cases hC3 : octOk (dRun (u.drop p2)) = true ∧
      (u.drop (p2 + (dRun (u.drop p2)).length)).head? = some '.'
  swap
  · rw [if_neg hC3] at h
    simp at h
  rw [if_pos hC3] at h
  unfold specEnd at h
  set p3 : Nat := p2 + (dRun (u.drop p2)).length + 1 with hp3
  by_cases hC4 : octOk (dRun (u.drop p3)) = true ∧
      isWordO ((u.drop (p3 + (dRun (u.drop p3)).length)).head?) = false
  swap
  · rw [if_neg hC4] at h
    simp at h
  rw [if_pos hC4] at h
  have he : e = p3 + (dRun (u.drop p3)).length := by
    have h2 := h
    simp only [Option.some.injEq] at h2
    exact h2.symm
  subst he
  set g1 : List Char := dRun u with hg1
  set g2 : List Char := dRun (u.drop p1) with hg2
  set g3 : List Char := dRun (u.drop p2) with hg3
  set g4 : List Char := dRun (u.drop p3) with hg4
  have hall1 : g1.all isDig = true := dRun_all u
  have hall2 : g2.all isDig = true := dRun_all _
  have hall3 : g3.all isDig = true := dRun_all _
  have hall4 : g4.all isDig = true := dRun_all _
  have hd1 : u = g1 ++ '.' :: u.drop p1 := peel_run0 hC1.2
  have hd2 : u.drop p1 = g2 ++ '.' :: u.drop p2 := peel_run hC2.2
  have hd3 : u.drop p2 = g3 ++ '.' :: u.drop p3 := peel_run hC3.2
  have hd4 : u.drop p3 = g4 ++ u.drop (p3 + g4.length) := peel_end
  have hq : u = (g1 ++ '.' :: (g2 ++ '.' :: (g3 ++ '.' :: g4))) ++
      u.drop (p3 + g4.length) := by
    conv_lhs => rw [hd1, hd2, hd3, hd4]
    simp [List.append_assoc]
  have hlenpre : (g1 ++ '.' :: (g2 ++ '.' :: (g3 ++ '.' :: g4))).length =
      p3 + g4.length := by
    simp [hp3, hp2, hp1]
    omega
  have htake : u.take (p3 + g4.length) =
      g1 ++ '.' :: (g2 ++ '.' :: (g3 ++ '.' :: g4)) := by
    conv_lhs => rw [hq]
    exact List.take_left' hlenpre
  have hdf1 : ∀ c ∈ g1, c ≠ '.' :=
    fun c hc => dig_ne_dot (List.all_eq_true.mp hall1 c hc)
  have hdf2 : ∀ c ∈ g2, c ≠ '.' :=
    fun c hc => dig_ne_dot (List.all_eq_true.mp hall2 c hc)
  have hdf3 : ∀ c ∈ g3, c ≠ '.' :=
    fun c hc => dig_ne_dot (List.all_eq_true.mp hall3 c hc)
  have hdf4 : ∀ c ∈ g4, c ≠ '.' :=
    fun c hc => dig_ne_dot (List.all_eq_true.mp hall4 c hc)
  have hsplit : splitDots (g1 ++ '.' :: (g2 ++ '.' :: (g3 ++ '.' :: g4))) =
      [g1, g2, g3, g4] := by
    rw [splitDots_append hdf1, splitDots_append hdf2, splitDots_append hdf3,
      splitDots_dotfree hdf4]
  have hquad : isQuad (u.take (p3 + g4.length)) = true := by
    rw [htake]
    unfold isQuad
    rw [hsplit]
    simp [hC1.1, hC2.1, hC3.1, hC4.1]
  have hg4ne : g4 ≠ [] := by
    intro hnil
    have := octOk_pos hC4.1
    rw [hnil] at this
    simp at this
  have hgl : (u.take (p3 + g4.length)).getLast? = g4.getLast? := by
    rw [htake]
    rw [show g1 ++ '.' :: (g2 ++ '.' :: (g3 ++ '.' :: g4)) =
      (g1 ++ '.' :: (g2 ++ '.' :: (g3 ++ ['.']))) ++ g4 from by simp]
    exact List.getLast?_append_of_ne_nil _ hg4ne
  have hbdy : bdy ((u.take (p3 + g4.length)).getLast?)
      ((u.drop (p3 + g4.length)).head?) = true := by
    rw [hgl, bdy_of_word (getLast_digit hg4ne hall4), hC4.2]
    rfl
  have hlen : p3 + g4.length ≤ u.length := by
    have h2 := congrArg List.length hq
    simp at h2
    omega
  exact ⟨by omega, hlen, hquad, hbdy⟩

/-- Completeness of the normal form: any word-boundary-delimited
dotted-quad prefix forces the match, with exactly that extent. -/
theorem specFrom_complete {u : List Char} {j : Nat} (hj : j ≤ u.length)
    (hq : isQuad (u.take j) = true)
    (hb : bdy ((u.take j).getLast?) ((u.drop j).head?) = true) :
    specFrom u = some j := by
  unfold isQuad at hq
  split at hq
  case h_2 => simp at hq
  case h_1 g1 g2 g3 g4 heq =>
  simp only [Bool.and_eq_true] at hq
  obtain ⟨⟨⟨hok1, hok2⟩, hok3⟩, hok4⟩ := hq
  have hall1 : g1.all isDig = true := octOk_digits hok1
  have hall2 : g2.all isDig = true := octOk_digits hok2
  have hall3 : g3.all isDig = true := octOk_digits hok3
  have hall4 : g4.all isDig = true := octOk_digits hok4
  have ht : u.take j = g1 ++ '.' :: (g2 ++ '.' :: (g3 ++ '.' :: g4)) := by
    have hjoin := splitDots_join (u.take j)
    rw [heq] at hjoin
    exact hjoin.symm
  have hu : u = (g1 ++ '.' :: (g2 ++ '.' :: (g3 ++ '.' :: g4))) ++
      u.drop j := by
    conv_lhs => rw [← List.take_append_drop j u]
    rw [ht]
  have hg4ne : g4 ≠ [] := by
    intro hnil
    have := octOk_pos hok4
    rw [hnil] at this
    simp at this
  have hgl : (u.take j).getLast? = g4.getLast? := by
    rw [ht]
    rw [show g1 ++ '.' :: (g2 ++ '.' :: (g3 ++ '.' :: g4)) =
      (g1 ++ '.' :: (g2 ++ '.' :: (g3 ++ ['.']))) ++ g4 from by simp]
    exact List.getLast?_append_of_ne_nil _ hg4ne
  have hstop : isWordO ((u.drop j).head?) = false := by
    rw [hgl, bdy_of_word (getLast_digit hg4ne hall4)] at hb
    cases hc : isWordO ((u.drop j).head?) with
    | false => rfl
    | true =>
      rw [hc] at hb
      simp at hb
  have hrun1 : dRun u = g1 := by
    conv_lhs => rw [hu]
    rw [show (g1 ++ '.' :: (g2 ++ '.' :: (g3 ++ '.' :: g4))) ++ u.drop j =
      g1 ++ '.' :: ((g2 ++ '.' :: (g3 ++ '.' :: g4)) ++ u.drop j) from by
        simp]
    exact dRun_append_dot hall1
  have hu2 : u = g1 ++ '.' :: ((g2 ++ '.' :: (g3 ++ '.' :: g4)) ++
      u.drop j) := by
    conv_lhs => rw [hu]
    simp
  have hu3 : u = (g1 ++ ['.']) ++ ((g2 ++ '.' :: (g3 ++ '.' :: g4)) ++
      u.drop j) := by
    conv_lhs => rw [hu]
    simp
  have hdot1 : (u.drop g1.length).head? = some '.' := by
    conv_lhs => rw [hu2]
    rw [List.drop_left]
    rfl
  have hdrop1 : u.drop (g1.length + 1) =
      (g2 ++ '.' :: (g3 ++ '.' :: g4)) ++ u.drop j := by
    conv_lhs => rw [hu3]
    exact List.drop_left' (by simp)
  have hrun2 : dRun (u.drop (g1.length + 1)) = g2 := by
    rw [hdrop1]
    rw [show (g2 ++ '.' :: (g3 ++ '.' :: g4)) ++ u.drop j =
      g2 ++ '.' :: ((g3 ++ '.' :: g4) ++ u.drop j) from by simp]
    exact dRun_append_dot hall2
  have hdot2 : (u.drop (g1.length + 1 + g2.length)).head? = some '.' := by
    have hstep : u.drop (g1.length + 1 + g2.length) =
        '.' :: ((g3 ++ '.' :: g4) ++ u.drop j) := by
      rw [← List.drop_drop, hdrop1]
      rw [show (g2 ++ '.' :: (g3 ++ '.' :: g4)) ++ u.drop j =
        g2 ++ '.' :: ((g3 ++ '.' :: g4) ++ u.drop j) from by simp]
      exact List.drop_left g2 _
    rw [hstep]
    rfl
  have hdrop2 : u.drop (g1.length + 1 + g2.length + 1) =
      (g3 ++ '.' :: g4) ++ u.drop j := by
    rw [show g1.length + 1 + g2.length + 1 =
      (g1.length + 1) + (g2.length + 1) from by omega]
    rw [← List.drop_drop, hdrop1]
    rw [show (g2 ++ '.' :: (g3 ++ '.' :: g4)) ++ u.drop j =
      (g2 ++ ['.']) ++ ((g3 ++ '.' :: g4) ++ u.drop j) from by simp]
    exact List.drop_left' (by simp)
  have hrun3 : dRun (u.drop (g1.length + 1 + g2.length + 1)) = g3 := by
    rw [hdrop2]
    rw [show (g3 ++ '.' :: g4) ++ u.drop j =
      g3 ++ '.' :: (g4 ++ u.drop j) from by simp]
    exact dRun_append_dot hall3
  have hdot3 : (u.drop (g1.length + 1 + g2.length + 1 + g3.length)).head? =
      some '.' := by
    have hstep : u.drop (g1.length + 1 + g2.length + 1 + g3.length) =
        '.' :: (g4 ++ u.drop j) := by
      rw [← List.drop_drop, hdrop2]
      rw [show (g3 ++ '.' :: g4) ++ u.drop j =
        g3 ++ '.' :: (g4 ++ u.drop j) from by simp]
      exact List.drop_left g3 _
    rw [hstep]
    rfl
  have hdrop3 : u.drop (g1.length + 1 + g2.length + 1 + g3.length + 1) =
      g4 ++ u.drop j := by
    rw [show g1.length + 1 + g2.length + 1 + g3.length + 1 =
      (g1.length + 1 + g2.length + 1) + (g3.length + 1) from by omega]
    rw [← List.drop_drop, hdrop2]
    rw [show (g3 ++ '.' :: g4) ++ u.drop j =
      (g3 ++ ['.']) ++ (g4 ++ u.drop j) from by simp]
    exact List.drop_left' (by simp)
  have hrun4 : dRun (u.drop (g1.length + 1 + g2.length + 1 + g3.length + 1))
      = g4 := by
    rw [hdrop3]
    exact dRun_append_stop hall4 hstop
  have hlenj : j = g1.length + 1 + g2.length + 1 + g3.length + 1 +
      g4.length := by
    have h2 := congrArg List.length ht
    rw [List.length_take] at h2
    simp at h2
    omega
  have hdropj : u.drop (g1.length + 1 + g2.length + 1 + g3.length + 1 +
      g4.length) = u.drop j := by
    rw [← List.drop_drop, hdrop3]
    exact List.drop_left g4 _
  unfold specFrom
  rw [hrun1, if_pos ⟨hok1, hdot1⟩]
  unfold specFrom3
  rw [hrun2, if_pos ⟨hok2, hdot2⟩]
  unfold specFrom2
  rw [hrun3, if_pos ⟨hok3, hdot3⟩]
  unfold specEnd
  rw [hrun4, if_pos ⟨hok4, by rw [hdropj]; exact hstop⟩]
  rw [Option.some.injEq]
  omega

/-- Pointwise equivalence at one position: the backtracking IPv4 match is
exactly the longest word-boundary-delimited dotted-quad extent. -/
theorem matchIpAt_eq_quadAt (prev : Option Char) (u : List Char) :
    matchIpAt prev u = quadAt prev u := by
  unfold matchIpAt quadAt
  by_cases hb : bdy prev u.head? = true
  swap
  · rw [if_neg hb, if_neg hb]
  rw [if_pos hb, if_pos hb, matchIpFrom_eq]
  cases hs : specFrom u with
  | none =>
    rw [tryLens_none]
    · rfl
    intro j hj
    by_cases hchk : (isQuad (u.take j) &&
        bdy ((u.take j).getLast?) ((u.drop j).head?)) = true
    · exfalso
      rw [Bool.and_eq_true] at hchk
      have hjm := (mem_downFrom (m := u.length)).mp hj
      have hcomp := specFrom_complete hjm.2 hchk.1 hchk.2
      rw [hs] at hcomp
      simp at hcomp
    · rw [if_neg hchk]
  | some e =>
    obtain ⟨h1, hle, hqd, hbd⟩ := specFrom_sound hs
    have huniq : ∀ j ∈ jCands u,
        (isQuad (u.take j) &&
          bdy ((u.take j).getLast?) ((u.drop j).head?)) = true → j = e := by
      intro j hj hchk
      rw [Bool.and_eq_true] at hchk
      have hjm := (mem_downFrom (m := u.length)).mp hj
      have hcomp := specFrom_complete hjm.2 hchk.1 hchk.2
      rw [hs] at hcomp
      simpa using hcomp.symm
    rw [tryLens_filter (jCands u)
      (fun j => (isQuad (u.take j) &&
        bdy ((u.take j).getLast?) ((u.drop j).head?)) = true)
      (fun j => some (u.take j)) e huniq]
    rw [if_pos ⟨(mem_downFrom (m := u.length)).mpr ⟨h1, hle⟩,
      by rw [Bool.and_eq_true]; exact ⟨hqd, hbd⟩⟩]
    rfl

/-- The embedded IPv4 extractor agrees with the amended word-boundary
dotted-quad specification on every string. -/
theorem pyIpSearch_eq_specIp (s : String) : pyIpSearch s = specIp s := by
  unfold pyIpSearch specIp reSearch
  rw [searchAux_congr matchIpAt quadAt matchIpAt_eq_quadAt none s.toList]

/-! ## Pointwise equivalence for the error-code pattern -/

theorem space_not_dig {c : Char} (hc : isPySpace c = true) :
    isDig c = false := by
  simp only [isPySpace, Bool.or_eq_true, decide_eq_true_eq] at hc
  rcases hc with ((((h | h) | h) | h) | h) | h <;> subst h <;> decide

theorem dRun_drop_lt_count {v : List Char} {k : Nat}
    (hk : k < countP isPySpace v) : dRun (v.drop k) = [] := by
  obtain ⟨c, hc, hpc⟩ := drop_head_of_lt_countP hk
  cases hv : v.drop k with
  | nil => simp [dRun, hv]
  | cons x xs =>
    rw [hv] at hc
    simp only [List.head?_cons, Option.some.injEq] at hc
    subst hc
    simp [dRun, List.takeWhile_cons, space_not_dig hpc]

theorem matchErrAt_eq_specErrAt (u : List Char) :
    matchErrAt u = specErrAt u := by
  unfold matchErrAt specErrAt
  cases hd : dropLit ("ERROR".toList) u with
  | none => rfl
  | some v =>
    simp only []
    have hlen : (v.takeWhile isPySpace).length = countP isPySpace v := rfl
    cases hr : countP isPySpace v with
    | zero =>
      have hw : v.takeWhile isPySpace = [] :=
        List.eq_nil_of_length_eq_zero (hlen.trans hr)
      simp [plusLens, hr, downFrom, tryLens, hw]
    | succ m =>
      have hw : (v.takeWhile isPySpace).length = m + 1 := hlen.trans hr
      have hwne : (v.takeWhile isPySpace).isEmpty = false := by
        cases hvv : v.takeWhile isPySpace with
        | nil => rw [hvv] at hw; simp at hw
        | cons a as => rfl
      rw [plusLens, hr, hwne]
      simp only [Bool.false_or, downFrom, tryLens]
      cases hdr : (dRun (v.drop (m + 1))).isEmpty with
      | true =>
        have hnone : ∀ l ∈ downFrom m,
            (if (dRun (v.drop l)).isEmpty = true then none
             else some (dRun (v.drop l)) : Option (List Char)) = none := by
          intro l hl
          rw [mem_downFrom] at hl
          rw [dRun_drop_lt_count (v := v) (k := l) (by omega)]
          simp
        rw [tryLens_none _ _ hnone]
        simp [hdr]
      | false => simp [hdr]

theorem pyErrSearch_eq_specErr (s : String) : pyErrSearch s = specErr s := by
  unfold pyErrSearch specErr reSearch
  rw [searchAux_congr _ _ (fun p u => matchErrAt_eq_specErrAt u)]

/-! ## Program-level lemmas -/

theorem except_bind_ok {α β : Type} (x : α) (f : α → Except Unit β) :
    (Except.ok x >>= f) = f x := rfl

theorem except_pure {α : Type} (x : α) :
    (pure x : Except Unit α) = Except.ok x := rfl

theorem extractEntry_eq_ok {pat : Option PyRegex} (hwf : WellFormed pat)
    (line : String) (ip ec ua : Bool) :
    extractEntry line pat ip ec ua =
      Except.ok (extractFields line (matcherOf pat) ip ec ua) := by
  cases pat with
  | none => rfl
  | some p =>
    rcases hwf with hraw | ⟨f, hf⟩
    · simp only [extractEntry, extractFields, matcherOf, hraw, if_pos rfl]
      rfl
    · by_cases hraw : p.raw = ""
      · simp only [extractEntry, extractFields, matcherOf, hraw, if_pos rfl]
        rfl
      · simp only [extractEntry, extractFields, matcherOf, if_neg hraw, hf,
          Except.toOption]
        rfl

theorem extractEntry_malformed {p : PyRegex} (hraw : p.raw ≠ "")
    (hc : p.compiled = Except.error ()) (line : String) (ip ec ua : Bool) :
    extractEntry line (some p) ip ec ua = Except.error () := by
  simp [extractEntry, hraw, hc]

theorem mapM_extract_ok {pat : Option PyRegex} (hwf : WellFormed pat)
    (ip ec ua : Bool) (ls : List String) :
    ls.mapM (fun l => extractEntry l pat ip ec ua) =
      Except.ok (ls.map (fun l => extractFields l (matcherOf pat) ip ec ua)) := by
  induction ls with
  | nil => rfl
  | cons x xs ih =>
    rw [List.mapM_cons, extractEntry_eq_ok hwf x ip ec ua]
    simp only [except_bind_ok, ih, List.map_cons]
    rfl

/-- Central normal form of a successful run of analyze_log_file: with a
well-formed pattern configuration, the table is the per-line extraction
mapped over the limited lines and no error is logged. -/
theorem analyze_some_wf {pat : Option PyRegex} (hwf : WellFormed pat)
    (lines : List String) (limit : Option Int) (ip ec ua : Bool) :
    analyze_log_file (some lines) pat limit ip ec ua =
      ((applyLimit limit lines).map
        (fun l => extractFields l (matcherOf pat) ip ec ua), false) := by
  simp only [analyze_log_file]
  rw [mapM_extract_ok hwf ip ec ua]

theorem analyze_malformed {p : PyRegex} (hraw : p.raw ≠ "")
    (hc : p.compiled = Except.error ()) (lines : List String)
    (limit : Option Int) (ip ec ua : Bool) :
    analyze_log_file (some lines) (some p) limit ip ec ua =
      ([], !(applyLimit limit lines).isEmpty) := by
  simp only [analyze_log_file]
  cases hls : applyLimit limit lines with
  | nil => rfl
  | cons x xs =>
    rw [List.mapM_cons, extractEntry_malformed hraw hc x ip ec ua]
    rfl

/-- A limit argument that passes the validation of main: absent or
strictly positive. -/
def ValidLimit : Option Int → Prop
  | none => True
  | some l => 0 < l

theorem recKeys_extractFields (line : String)
    (cm : Option (String → Option String)) (ip ec ua : Bool) :
    recKeys (extractFields line cm ip ec ua) =
      expectedKeys cm.isSome ip ec ua := by
  cases cm <;> cases ip <;> cases ec <;> cases ua <;> rfl

theorem lookup_log (line : String) (cm : Option (String → Option String))
    (ip ec ua : Bool) :
    (extractFields line cm ip ec ua).lookup "log_entry" =
      some (some (pyStrip line)) := by
  cases cm <;> cases ip <;> cases ec <;> cases ua <;> rfl

theorem lookup_pat (line : String) (cm : Option (String → Option String))
    (ip ec ua : Bool) :
    (extractFields line cm ip ec ua).lookup "pattern_match" =
      cm.map (fun f => f line) := by
  cases cm <;> cases ip <;> cases ec <;> cases ua <;> rfl

theorem lookup_ip (line : String) (cm : Option (String → Option String))
    (ip ec ua : Bool) :
    (extractFields line cm ip ec ua).lookup "ip_address" =
      (if ip then some (pyIpSearch line) else none) := by
  cases cm <;> cases ip <;> cases ec <;> cases ua <;> rfl

theorem lookup_ec (line : String) (cm : Option (String → Option String))
    (ip ec ua : Bool) :
    (extractFields line cm ip ec ua).lookup "error_code" =
      (if ec then some (pyErrSearch line) else none) := by
  cases cm <;> cases ip <;> cases ec <;> cases ua <;> rfl

theorem lookup_ua (line : String) (cm : Option (String → Option String))
    (ip ec ua : Bool) :
    (extractFields line cm ip ec ua).lookup "user_agent" =
      (if ua then some (pyUaSearch line) else none) := by
  cases cm <;> cases ip <;> cases ec <;> cases ua <;> rfl

/-! ## Claim C1 (corrected) -/

/-- C1 counterexample: the claim says a malformed user-supplied regex is a
configuration-time error, surfaced before any line is processed. On a log
file that opens and has no lines, the code reports no error at all for a
malformed pattern (the pattern is only handed to re.search inside the
per-line loop), so no configuration-time check exists: the run returns an
empty table with the error flag false. -/
theorem c1_counterexample :
    analyze_log_file (some []) (some ⟨"(", Except.error ()⟩) none
      false false false = ([], false) := rfl

/-- C1 amended: a malformed custom pattern is not detected at configuration
time; re.search raises while the first retained line is being processed and
the error is caught at the analyze_log_file boundary, yielding an empty
table with an error reported. Consequently an error is reported exactly
when at least one line remains after the limit is applied; with no retained
line, no malformed-pattern error is ever reported. -/
theorem c1_amended_thm (p : PyRegex) (hraw : p.raw ≠ "")
    (hc : p.compiled = Except.error ()) (lines : List String)
    (limit : Option Int) (ip ec ua : Bool) :
    analyze_log_file (some lines) (some p) limit ip ec ua =
      ([], !(applyLimit limit lines).isEmpty) :=
  analyze_malformed hraw hc lines limit ip ec ua

/-- C1 amended, witness: a malformed pattern on a one-line file yields the
empty table and a reported error. -/
theorem c1_amended_witness :
    analyze_log_file (some ["alpha"]) (some ⟨"(", Except.error ()⟩) none
      false false false = ([], true) := by
  have h := c1_amended_thm ⟨"(", Except.error ()⟩ (by decide) rfl
    ["alpha"] none false false false
  simpa using h

/-! ## Claim C2 (corrected) -/

/-- C2 counterexample: the claim states the dotted-quad grammar with no
word-boundary condition, but the pattern of main.py line 62 anchors both
ends with a word boundary. On the line 1234.1.2.3 the code stores null,
while the first substring matching the grammar of the literal claim is
234.1.2.3. -/
theorem c2_counterexample :
    pyIpSearch "1234.1.2.3" = none ∧
      firstQuadSub "1234.1.2.3" = some "234.1.2.3" := by
  constructor <;> rfl

/-- C2 amended: with the IPv4 rule active, the ip_address field of every
record holds the first substring of the raw line that matches the
dotted-quad grammar AND is delimited by word boundaries on both sides
(earliest starting position; there, the longest such extent), and null when
no such substring exists; in particular 192.168.1.1 is extracted verbatim
and a line whose only candidate is 999.999.999.999 yields null. -/
theorem c2_amended_thm (line : String)
    (cm : Option (String → Option String)) (ec ua : Bool) :
    (extractFields line cm true ec ua).lookup "ip_address" =
      some (specIp line) ∧
    (extractFields "client 192.168.1.1 connected" none true false
        false).lookup "ip_address" = some (some "192.168.1.1") ∧
    (extractFields "a 999.999.999.999 b" none true false false).lookup
        "ip_address" = some none := by
  refine ⟨?_, by decide, by decide⟩
  rw [lookup_ip, if_pos rfl, pyIpSearch_eq_specIp]

/-! ## Claim C3 (confirmed) -/

/-- C3: with the ErrorCode rule active, the error_code field of every
record holds, per the specification reading specErr, the digit sequence of
the first occurrence of the literal token ERROR followed by whitespace and
one or more digits, excluding the word ERROR itself, and none when no such
occurrence exists; in particular the example line of the claim yields the
digit string 4042. -/
theorem c3_error_code (line : String)
    (cm : Option (String → Option String)) (ip ua : Bool) :
    (extractFields line cm ip true ua).lookup "error_code" =
      some (specErr line) ∧
    (extractFields "ERROR 4042: disk full" none false true false).lookup
        "error_code" = some (some "4042") := by
  constructor
  · rw [lookup_ec, if_pos rfl, pyErrSearch_eq_specErr]
  · decide

/-! ## Claim C5 (confirmed) -/

/-- C5: for a positive limit N and a well-formed configuration, the run
processes exactly the first N lines (all lines when fewer exist): the
table is the per-line extraction mapped over the prefix, in file order,
and its row count is the minimum of N and the number of lines. The
truncation happens before extraction: the table is literally the map over
the truncated list. -/
theorem c5_limit_thm (lines : List String) (N : Int) (pat : Option PyRegex)
    (ip ec ua : Bool) (hN : 0 < N) (hwf : WellFormed pat) :
    analyze_log_file (some lines) pat (some N) ip ec ua =
      ((lines.take N.toNat).map
        (fun l => extractFields l (matcherOf pat) ip ec ua), false) ∧
    (analyze_log_file (some lines) pat (some N) ip ec ua).1.length =
      min N.toNat lines.length := by
  have happ : applyLimit (some N) lines = lines.take N.toNat := by
    have hne : ¬(N = 0) := by omega
    have hpos : (0 : Int) ≤ N := by omega
    simp [applyLimit, pySliceTo, hne, hpos]
  have h := analyze_some_wf hwf lines (some N) ip ec ua
  rw [happ] at h
  refine ⟨h, ?_⟩
  rw [h]
  simp [List.length_take]

/-- C5 witness: limit 3 on a 10-line file keeps exactly the first 3 lines
in order. -/
theorem c5_limit_witness :
    analyze_log_file
        (some ["l0", "l1", "l2", "l3", "l4", "l5", "l6", "l7", "l8", "l9"])
        none (some 3) false false false =
      ([[("log_entry", some "l0")], [("log_entry", some "l1")],
        [("log_entry", some "l2")]], false) ∧
    (analyze_log_file
        (some ["l0", "l1", "l2", "l3", "l4", "l5", "l6", "l7", "l8", "l9"])
        none (some 3) false false false).1.length = 3 := by
  have h := c5_limit_thm
    ["l0", "l1", "l2", "l3", "l4", "l5", "l6", "l7", "l8", "l9"]
    3 none false false false (by decide) trivial
  exact ⟨by rw [h.1]; decide, by rw [h.2]; decide⟩

/-! ## Claim C6 (confirmed) -/

/-- C6: when the input file cannot be opened, the run returns an empty
table, an error is logged inside analyze_log_file rather than raised
further, no CSV is written even when an output destination was supplied,
and the caller takes the no-data warning path. -/
theorem c6_missing_file (pat : Option PyRegex) (limit : Option Int)
    (ip ec ua : Bool) (output : Option String) (hl : ValidLimit limit) :
    mainRun none pat limit ip ec ua output =
      { table := [], errorLogged := true, csvWritten := none,
        warned := true, printed := false } := by
  have hlb : limitBad limit = false := by
    cases limit with
    | none => rfl
    | some l =>
      simp only [ValidLimit] at hl
      simp [limitBad]
      omega
  simp [mainRun, hlb, analyze_log_file]

/-- C6 witness: a missing file with a CSV destination supplied and the
IPv4 rule active still writes nothing and warns. -/
theorem c6_missing_file_witness :
    mainRun none none (some 5) true false false (some "out.csv") =
      { table := [], errorLogged := true, csvWritten := none,
        warned := true, printed := false } :=
  c6_missing_file none (some 5) true false false (some "out.csv")
    (by simp [ValidLimit])

/-! ## Claim C7 (confirmed) -/

/-- C7: the column set of the table is fixed for the whole run by the
active rules alone: every record of any run has exactly the field list
expectedKeys, log_entry plus one field per active rule, and when an active
rule finds no match on a line, that field holds the none marker (never an
empty string stands in for a missing match). -/
theorem c7_fixed_columns (lines : List String) (pat : Option PyRegex)
    (limit : Option Int) (ip ec ua : Bool) (line : String)
    (cm : Option (String → Option String)) (f : String → Option String)
    (hwf : WellFormed pat)
    (hip : pyIpSearch line = none) (hec : pyErrSearch line = none)
    (hua : pyUaSearch line = none) (hf : f line = none) :
    (analyze_log_file (some lines) pat limit ip ec ua).1.map recKeys =
      List.replicate
        (analyze_log_file (some lines) pat limit ip ec ua).1.length
        (expectedKeys (matcherOf pat).isSome ip ec ua) ∧
    (extractFields line cm true ec ua).lookup "ip_address" = some none ∧
    (extractFields line cm ip true ua).lookup "error_code" = some none ∧
    (extractFields line cm ip ec true).lookup "user_agent" = some none ∧
    (extractFields line (some f) ip ec ua).lookup "pattern_match" =
      some none := by
  refine ⟨?_, ?_, ?_, ?_, ?_⟩
  · rw [analyze_some_wf hwf]
    refine List.eq_replicate_iff.mpr ⟨by simp, ?_⟩
    intro b hb
    simp only [List.map_map, List.mem_map, Function.comp] at hb
    obtain ⟨l, hl, rfl⟩ := hb
    rw [recKeys_extractFields]
  · rw [lookup_ip, if_pos rfl, hip]
  · rw [lookup_ec, if_pos rfl, hec]
  · rw [lookup_ua, if_pos rfl, hua]
  · rw [lookup_pat]
    simp [hf]

/-- C7 witness: a concrete run with every rule active; the line matches no
rule, so every rule field holds the none marker, and the column set is the
full fixed list. -/
theorem c7_fixed_columns_witness :
    (analyze_log_file (some ["quiet line"])
        (some ⟨"zz", Except.ok (literalSearch "zz")⟩) none true true
        true).1.map recKeys =
      List.replicate
        (analyze_log_file (some ["quiet line"])
          (some ⟨"zz", Except.ok (literalSearch "zz")⟩) none true true
          true).1.length
        (expectedKeys true true true true) ∧
    (extractFields "quiet line" (some (literalSearch "zz")) true true
        true).lookup "ip_address" = some none ∧
    (extractFields "quiet line" (some (literalSearch "zz")) true true
        true).lookup "error_code" = some none ∧
    (extractFields "quiet line" (some (literalSearch "zz")) true true
        true).lookup "user_agent" = some none ∧
    (extractFields "quiet line" (some (literalSearch "zz")) true true
        true).lookup "pattern_match" = some none := by
  have h := c7_fixed_columns ["quiet line"]
    (some ⟨"zz", Except.ok (literalSearch "zz")⟩) none true true true
    "quiet line" (some (literalSearch "zz")) (literalSearch "zz")
    (Or.inr ⟨literalSearch "zz", rfl⟩) (by decide) (by decide) (by decide)
    (by decide)
  exact h

/-! ## Claim C8 (confirmed) -/

/-- C8: rule matching is independent per rule. For any line, the value a
run stores for one rule depends only on the line and that rule, never on
which other rules are active: two configurations that both activate the
rule store the same value, and rules never short-circuit one another. -/
theorem c8_independence (line : String)
    (cm cm' : Option (String → Option String)) (f : String → Option String)
    (ip ec ua ip' ec' ua' : Bool) :
    (ip = true → ip' = true →
      (extractFields line cm ip ec ua).lookup "ip_address" =
        (extractFields line cm' ip' ec' ua').lookup "ip_address") ∧
    (ec = true → ec' = true →
      (extractFields line cm ip ec ua).lookup "error_code" =
        (extractFields line cm' ip' ec' ua').lookup "error_code") ∧
    (ua = true → ua' = true →
      (extractFields line cm ip ec ua).lookup "user_agent" =
        (extractFields line cm' ip' ec' ua').lookup "user_agent") ∧
    (cm = some f → cm' = some f →
      (extractFields line cm ip ec ua).lookup "pattern_match" =
        (extractFields line cm' ip' ec' ua').lookup "pattern_match") := by
  refine ⟨?_, ?_, ?_, ?_⟩
  · intro h h'
    rw [lookup_ip, lookup_ip, h, h']
  · intro h h'
    rw [lookup_ec, lookup_ec, h, h']
  · intro h h'
    rw [lookup_ua, lookup_ua, h, h']
  · intro h h'
    rw [lookup_pat, lookup_pat, h, h']

/-- C8 witness: a line matching several rules at once stores, for each
rule, the same value in two runs with different companion rules. -/
theorem c8_independence_witness :
    ((extractFields "ERROR 7 at 1.2.3.4" (some (literalSearch "at")) true
        true false).lookup "ip_address" =
      (extractFields "ERROR 7 at 1.2.3.4" none true false true).lookup
        "ip_address") ∧
    ((extractFields "ERROR 7 at 1.2.3.4" (some (literalSearch "at")) true
        true false).lookup "error_code" =
      (extractFields "ERROR 7 at 1.2.3.4" none false true true).lookup
        "error_code") ∧
    ((extractFields "ERROR 7 at 1.2.3.4" (some (literalSearch "at")) false
        false true).lookup "user_agent" =
      (extractFields "ERROR 7 at 1.2.3.4" none true true true).lookup
        "user_agent") ∧
    ((extractFields "ERROR 7 at 1.2.3.4" (some (literalSearch "at")) true
        true false).lookup "pattern_match" =
      (extractFields "ERROR 7 at 1.2.3.4" (some (literalSearch "at"))
        false false true).lookup "pattern_match") := by
  refine ⟨?_, ?_, ?_, ?_⟩
  · exact (c8_independence "ERROR 7 at 1.2.3.4"
      (some (literalSearch "at")) none (literalSearch "at") true true false
      true false true).1 rfl rfl
  · exact (c8_independence "ERROR 7 at 1.2.3.4"
      (some (literalSearch "at")) none (literalSearch "at") true true false
      false true true).2.1 rfl rfl
  · exact (c8_independence "ERROR 7 at 1.2.3.4"
      (some (literalSearch "at")) none (literalSearch "at") false false
      true true true true).2.2.1 rfl rfl
  · exact (c8_independence "ERROR 7 at 1.2.3.4"
      (some (literalSearch "at")) (some (literalSearch "at"))
      (literalSearch "at") true true false false false true).2.2.2 rfl rfl

/-! ## Claim C9 (confirmed) -/

/-- C9: an empty pattern string is falsy in Python, so the CustomPattern
rule is silently treated as absent: a run with an empty raw pattern equals
the run with no pattern argument at all (whatever the compilation outcome
would have been), and no record of such a run contains a pattern_match
field. -/
theorem c9_empty_pattern (c : Except Unit (String → Option String))
    (lines : List String) (limit : Option Int) (ip ec ua : Bool) :
    analyze_log_file (some lines) (some ⟨"", c⟩) limit ip ec ua =
      analyze_log_file (some lines) none limit ip ec ua ∧
    ((analyze_log_file (some lines) (some ⟨"", c⟩) limit ip ec
        ua).1.all (fun r => !(recKeys r).contains "pattern_match")) =
      true := by
  have hwf : WellFormed (some ⟨"", c⟩) := Or.inl rfl
  have hwfn : WellFormed none := trivial
  have hm : matcherOf (some ⟨"", c⟩) = none := rfl
  constructor
  · rw [analyze_some_wf hwf, analyze_some_wf hwfn, hm]
    rfl
  · rw [analyze_some_wf hwf]
    simp only [List.all_eq_true, List.mem_map]
    rintro b ⟨l, hl, rfl⟩
    rw [recKeys_extractFields, hm]
    cases ip <;> cases ec <;> cases ua <;> decide

/-! ## Claim C10 (confirmed) -/

/-- C10: every extraction rule searches the raw line exactly as read from
the file, while log_entry holds the stripped text: the record is literally
the list of the search results on the raw line next to the stripped line
in log_entry. In particular, for the raw line with text ax, a space and a
trailing newline, a custom literal pattern for an x, a space and a newline
stores a match containing the newline, a character that does not occur in
the stripped log_entry value of the same record. -/
theorem c10_raw_line_searched
    (line : String) (f : String → Option String) (ip ec ua : Bool) :
    (extractFields line (some f) ip ec ua =
      [("log_entry", some (pyStrip line))] ++ [("pattern_match", f line)] ++
      (if ip then [("ip_address", pyIpSearch line)] else []) ++
      (if ec then [("error_code", pyErrSearch line)] else []) ++
      (if ua then [("user_agent", pyUaSearch line)] else [])) ∧
    extractEntry "ax \n" (some ⟨"x \n", Except.ok (literalSearch "x \n")⟩)
        false false false =
      Except.ok [("log_entry", some "ax"), ("pattern_match", some "x \n")] ∧
    '\n' ∈ ("x \n").toList ∧ '\n' ∉ ("ax").toList := by
  refine ⟨?_, by rfl, by decide, by decide⟩
  cases ip <;> cases ec <;> cases ua <;> simp [extractFields]

/-! ## Pointwise analysis of the user-agent pattern -/

theorem not_space_ne_nl {x : Char} (hx : isPySpace x = false) : x ≠ '\n' := by
  intro h
  subst h
  simp [isPySpace] at hx

theorem takeWhile_ne_nl_of_free {l nl : List Char}
    (hl : ∀ c ∈ l, c ≠ '\n') (hnl : nl = [] ∨ nl = ['\n']) :
    (l ++ nl).takeWhile (fun x => x != '\n') = l := by
  have h1 : (l ++ nl).takeWhile (fun x => x != '\n') =
      l ++ nl.takeWhile (fun x => x != '\n') :=
    List.takeWhile_append_of_pos (by intro c hc; simpa using hl c hc)
  rcases hnl with rfl | rfl
  · simpa using h1
  · rw [h1]
    simp [List.takeWhile_cons]

theorem uaBack_zero (v : List Char) :
    uaBack v 0 =
      match v.head? with
      | some c =>
        if c = '\n' then none
        else some (v.takeWhile (fun x => x != '\n'))
      | none => none := rfl

theorem uaBack_succ (v : List Char) (m : Nat) :
    uaBack v (m + 1) =
      match (v.drop (m + 1)).head? with
      | some c =>
        if c = '\n' then uaBack v m
        else some ((v.drop (m + 1)).takeWhile (fun x => x != '\n'))
      | none => uaBack v m := rfl

/-- The backtracking whitespace star stops exactly at the first character
that is not whitespace: the group is that character and everything up to
the newline. -/
theorem uaBack_found (ws : List Char) (x : Char) (t nl : List Char)
    (hws : ∀ c ∈ ws, isPySpace c = true) (hx : isPySpace x = false)
    (ht : ∀ c ∈ x :: t, c ≠ '\n') (hnl : nl = [] ∨ nl = ['\n']) :
    uaBack (ws ++ x :: (t ++ nl)) (countP isPySpace (ws ++ x :: (t ++ nl)))
      = some (x :: t) := by
  have hcount : countP isPySpace (ws ++ x :: (t ++ nl)) = ws.length := by
    unfold countP
    rw [List.takeWhile_append_of_pos hws, List.takeWhile_cons, hx]
    simp
  have hdrop : (ws ++ x :: (t ++ nl)).drop ws.length = x :: (t ++ nl) :=
    List.drop_left ws _
  have htake : (x :: (t ++ nl)).takeWhile (fun y => y != '\n') = x :: t := by
    have h := takeWhile_ne_nl_of_free ht hnl
    simpa using h
  rw [hcount]
  cases hlen : ws.length with
  | zero =>
    have hwsnil : ws = [] := List.length_eq_zero.mp hlen
    subst hwsnil
    rw [uaBack_zero]
    simp only [List.nil_append, List.head?_cons]
    rw [if_neg (not_space_ne_nl hx)]
    simp only [List.nil_append] at htake
    rw [htake]
  | succ m =>
    have hd2 : (ws ++ x :: (t ++ nl)).drop (m + 1) = x :: (t ++ nl) := by
      rw [← hlen]
      exact hdrop
    rw [uaBack_succ, hd2]
    simp only [List.head?_cons]
    rw [if_neg (not_space_ne_nl hx), htake]

/-- An entirely whitespace remainder with a trailing newline: the star
backtracks to the last whitespace character before the newline. -/
theorem uaBack_allws_nl (ws : List Char) (a : Char)
    (hws : ∀ c ∈ ws ++ [a], isPySpace c = true) (ha : a ≠ '\n') :
    uaBack (ws ++ [a] ++ ['\n']) (countP isPySpace (ws ++ [a] ++ ['\n'])) =
      some [a] := by
  have hall : ∀ c ∈ ws ++ [a] ++ ['\n'], isPySpace c = true := by
    intro c hc
    rcases List.mem_append.mp hc with h | h
    · exact hws c h
    · simp only [List.mem_singleton] at h
      subst h
      rfl
  have hcount : countP isPySpace (ws ++ [a] ++ ['\n']) = ws.length + 2 := by
    unfold countP
    rw [List.takeWhile_eq_self_iff.mpr hall]
    simp
  have hlenv : (ws ++ [a] ++ ['\n']).length = ws.length + 2 := by simp
  have hdropAll : (ws ++ [a] ++ ['\n']).drop (ws.length + 2) = [] := by
    rw [← hlenv]
    exact List.drop_length _
  have hdropNl : (ws ++ [a] ++ ['\n']).drop (ws.length + 1) = ['\n'] := by
    have : (ws ++ [a]).length = ws.length + 1 := by simp
    rw [← this]
    exact List.drop_left _ _
  have hdropA : (ws ++ [a] ++ ['\n']).drop ws.length = [a, '\n'] := by
    rw [List.append_assoc]
    exact List.drop_left _ _
  rw [hcount, uaBack_succ, hdropAll]
  simp only [List.head?_nil]
  rw [uaBack_succ, hdropNl]
  simp only [List.head?_cons, if_pos rfl]
  cases hlen : ws.length with
  | zero =>
    have hwsnil : ws = [] := List.length_eq_zero.mp hlen
    subst hwsnil
    rw [uaBack_zero]
    simp only [List.nil_append, List.cons_append, List.head?_cons]
    rw [if_neg ha]
    simp [List.takeWhile_cons, ha]
  | succ m =>
    have hd2 : (ws ++ [a] ++ ['\n']).drop (m + 1) = [a, '\n'] := by
      rw [← hlen]
      exact hdropA
    rw [uaBack_succ, hd2]
    simp only [List.head?_cons]
    rw [if_neg ha]
    simp [List.takeWhile_cons, ha]

/-- An entirely whitespace remainder with no trailing newline: the star
backtracks to the very last character. -/
theorem uaBack_allws_end (ws : List Char) (a : Char) (ha : a ≠ '\n')
    (hws : ∀ c ∈ ws ++ [a], isPySpace c = true) :
    uaBack (ws ++ [a]) (countP isPySpace (ws ++ [a])) = some [a] := by
  have hcount : countP isPySpace (ws ++ [a]) = ws.length + 1 := by
    unfold countP
    rw [List.takeWhile_eq_self_iff.mpr hws]
    simp
  have hlenv : (ws ++ [a]).length = ws.length + 1 := by simp
  have hdropAll : (ws ++ [a]).drop (ws.length + 1) = [] := by
    rw [← hlenv]
    exact List.drop_length _
  have hdropA : (ws ++ [a]).drop ws.length = [a] := List.drop_left _ _
  rw [hcount, uaBack_succ, hdropAll]
  simp only [List.head?_nil]
  cases hlen : ws.length with
  | zero =>
    have hwsnil : ws = [] := List.length_eq_zero.mp hlen
    subst hwsnil
    rw [uaBack_zero]
    simp only [List.nil_append, List.head?_cons]
    rw [if_neg ha]
    simp [List.takeWhile_cons, ha]
  | succ m =>
    have hd2 : (ws ++ [a]).drop (m + 1) = [a] := by
      rw [← hlen]
      exact hdropA
    rw [uaBack_succ, hd2]
    simp only [List.head?_cons]
    rw [if_neg ha]
    simp [List.takeWhile_cons, ha]

theorem chompNl_concat_nl (v₀ : List Char) : chompNl (v₀ ++ ['\n']) = v₀ := by
  unfold chompNl
  rw [List.getLast?_concat]
  simp [List.dropLast_concat]

theorem chompNl_concat_other {v₀ : List Char} {b : Char} (hb : b ≠ '\n') :
    chompNl (v₀ ++ [b]) = v₀ ++ [b] := by
  unfold chompNl
  rw [List.getLast?_concat]
  simp [hb]

theorem chompNl_eq_nil {v : List Char} (h : chompNl v = []) :
    v = [] ∨ v = ['\n'] := by
  rcases v.eq_nil_or_concat' with rfl | ⟨v₀, b, rfl⟩
  · exact Or.inl rfl
  · by_cases hb : b = '\n'
    · subst hb
      rw [chompNl_concat_nl] at h
      subst h
      exact Or.inr rfl
    · rw [chompNl_concat_other hb] at h
      simp at h

/-- Pointwise equivalence for the tail of the user-agent pattern on a
remainder with no interior newline: the backtracking star computes exactly
the case analysis of the amended specification. -/
theorem uaBack_eq_uaAmCore (v : List Char)
    (hnl : ∀ c ∈ v.dropLast, c ≠ '\n') :
    uaBack v (countP isPySpace v) = uaAmCore v := by
  rcases v.eq_nil_or_concat' with rfl | ⟨v₀, b, rfl⟩
  · rfl
  · have hv₀ : ∀ c ∈ v₀, c ≠ '\n' := by
      intro c hc
      exact hnl c (by rw [List.dropLast_concat]; exact hc)
    by_cases hb : b = '\n'
    · subst hb
      rcases hsplit : v₀.dropWhile isPySpace with _ | ⟨x, t⟩
      · have hall : ∀ c ∈ v₀, isPySpace c = true :=
          List.dropWhile_eq_nil_iff.mp hsplit
        rcases v₀.eq_nil_or_concat' with rfl | ⟨ws, a, rfl⟩
        · rfl
        · have ha : a ≠ '\n' := hv₀ a (by simp)
          rw [uaBack_allws_nl ws a hall ha]
          unfold uaAmCore
          rw [chompNl_concat_nl, hsplit]
          simp [List.getLastD_concat]
      · have hx : isPySpace x = false := by
          have h := List.head?_dropWhile_not isPySpace v₀
          rw [hsplit] at h
          simpa using h
        have hdecomp : v₀ = v₀.takeWhile isPySpace ++ (x :: t) := by
          rw [← hsplit]
          exact (List.takeWhile_append_dropWhile _ _).symm
        have hws : ∀ c ∈ v₀.takeWhile isPySpace, isPySpace c = true :=
          fun c hc => List.mem_takeWhile_imp hc
        have hxt : ∀ c ∈ x :: t, c ≠ '\n' := by
          intro c hc
          apply hv₀
          rw [hdecomp]
          exact List.mem_append_right _ hc
        have hform : v₀ ++ ['\n'] =
            v₀.takeWhile isPySpace ++ x :: (t ++ ['\n']) := by
          conv_lhs => rw [hdecomp]
          simp
        have hL : uaBack (v₀ ++ ['\n'])
            (countP isPySpace (v₀ ++ ['\n'])) = some (x :: t) := by
          rw [hform]
          exact uaBack_found _ x t ['\n'] hws hx hxt (Or.inr rfl)
        have hR : uaAmCore (v₀ ++ ['\n']) = some (x :: t) := by
          unfold uaAmCore
          rw [chompNl_concat_nl, hsplit]
          have hne : v₀.isEmpty = false := by
            cases v₀ with
            | nil => simp at hsplit
            | cons y ys => rfl
          simp [hne]
        rw [hL, hR]
    · rcases hsplit : (v₀ ++ [b]).dropWhile isPySpace with _ | ⟨x, t⟩
      · have hall : ∀ c ∈ v₀ ++ [b], isPySpace c = true :=
          List.dropWhile_eq_nil_iff.mp hsplit
        rw [uaBack_allws_end v₀ b hb hall]
        unfold uaAmCore
        rw [chompNl_concat_other hb, hsplit]
        simp [List.getLastD_concat]
      · have hx : isPySpace x = false := by
          have h := List.head?_dropWhile_not isPySpace (v₀ ++ [b])
          rw [hsplit] at h
          simpa using h
        have hdecomp : v₀ ++ [b] =
            (v₀ ++ [b]).takeWhile isPySpace ++ (x :: t) := by
          rw [← hsplit]
          exact (List.takeWhile_append_dropWhile _ _).symm
        have hws : ∀ c ∈ (v₀ ++ [b]).takeWhile isPySpace,
            isPySpace c = true := fun c hc => List.mem_takeWhile_imp hc
        have hvb : ∀ c ∈ v₀ ++ [b], c ≠ '\n' := by
          intro c hc
          rcases List.mem_append.mp hc with h | h
          · exact hv₀ c h
          · simp only [List.mem_singleton] at h
            subst h
            exact hb
        have hxt : ∀ c ∈ x :: t, c ≠ '\n' := by
          intro c hc
          apply hvb
          rw [hdecomp]
          exact List.mem_append_right _ hc
        have hform : v₀ ++ [b] =
            (v₀ ++ [b]).takeWhile isPySpace ++ x :: (t ++ []) := by
          conv_lhs => rw [hdecomp]
          simp
        have hL : uaBack (v₀ ++ [b]) (countP isPySpace (v₀ ++ [b])) =
            some (x :: t) := by
          conv_lhs => rw [hform]
          exact uaBack_found _ x t [] hws hx hxt (Or.inl rfl)
        have hR : uaAmCore (v₀ ++ [b]) = some (x :: t) := by
          unfold uaAmCore
          rw [chompNl_concat_other hb, hsplit]
          have hne : (v₀ ++ [b]).isEmpty = false := by simp
          simp [hne]
        rw [hL, hR]

theorem searchAux_cons {α : Type} (m : Option Char → List Char → Option α)
    (p : Option Char) (c : Char) (rest : List Char) :
    searchAux m p (c :: rest) =
      match m p (c :: rest) with
      | some r => some r
      | none => searchAux m (some c) rest := rfl

theorem uaAmCore_eq_none {v : List Char} (h : uaAmCore v = none) :
    chompNl v = [] := by
  unfold uaAmCore at h
  by_cases hc : (chompNl v).isEmpty
  · cases he : chompNl v with
    | nil => rfl
    | cons y ys => rw [he] at hc; simp at hc
  · rw [if_neg hc] at h
    by_cases hd : ((chompNl v).dropWhile isPySpace).isEmpty <;>
      simp [hd] at h

/-- On a line with no interior newline, the re.search scan of the
user-agent pattern computes the amended specification reading: the case
analysis at the first occurrence of the token, since an occurrence at
which the pattern fails leaves no room for a later occurrence. -/
theorem uaSearch_eq (u : List Char) :
    (∀ c ∈ u.dropLast, c ≠ '\n') → ∀ p,
      searchAux (fun _ v => matchUaAt v) p u =
        match firstOcc ("User-Agent:".toList) u with
        | none => none
        | some rest => uaAmCore rest := by
  induction u with
  | nil => intro _ p; rfl
  | cons c rest ih =>
    intro hnl p
    have hnl2 : ∀ x ∈ rest.dropLast, x ≠ '\n' := by
      intro x hx
      apply hnl
      cases hr : rest with
      | nil => rw [hr] at hx; simp at hx
      | cons y ys =>
        subst hr
        rw [List.dropLast_cons_of_ne_nil (List.cons_ne_nil y ys)]
        exact List.mem_cons_of_mem c hx
    rw [searchAux_cons, firstOcc]
    cases hD : dropLit ("User-Agent:".toList) (c :: rest) with
    | none =>
      have hm : matchUaAt (c :: rest) = none := by
        unfold matchUaAt
        rw [hD]
      simp only [hm]
      exact ih hnl2 (some c)
    | some v =>
      have hm : matchUaAt (c :: rest) = uaBack v (countP isPySpace v) := by
        unfold matchUaAt
        rw [hD]
      have hv := dropLit_eq_some hD
      have hnlv : ∀ x ∈ v.dropLast, x ≠ '\n' := by
        intro x hx
        apply hnl
        cases hv0 : v with
        | nil => rw [hv0] at hx; simp at hx
        | cons y ys =>
          have hstep : (c :: rest).dropLast =
              ("User-Agent:".toList) ++ v.dropLast := by
            rw [hv, List.dropLast_append_of_ne_nil _ (by rw [hv0]; simp)]
          rw [hstep]
          exact List.mem_append_right _ hx
      have hcore := uaBack_eq_uaAmCore v hnlv
      rw [hm, hcore]
      cases hA : uaAmCore v with
      | some r =>
        show some r = uaAmCore v
        exact hA.symm
      | none =>
        show searchAux (fun _ v => matchUaAt v) (some c) rest = uaAmCore v
        rw [hA]
        rcases chompNl_eq_nil (uaAmCore_eq_none hA) with rfl | rfl
        · have h2 : c :: rest = 'U' :: ("ser-Agent:".toList) := by
            rw [hv]
            rfl
          have hrest : rest = "ser-Agent:".toList :=
            (List.cons_eq_cons.mp h2).2
          rw [hrest]
          rfl
        · have h2 : c :: rest = 'U' :: ("ser-Agent:".toList ++ ['\n']) := by
            rw [hv]
            rfl
          have hrest : rest = "ser-Agent:".toList ++ ['\n'] :=
            (List.cons_eq_cons.mp h2).2
          rw [hrest]
          rfl

theorem pyUaSearch_eq_specUaAm {s : String} (h : NoInnerNl s) :
    pyUaSearch s = specUaAm s := by
  unfold pyUaSearch specUaAm reSearch
  rw [uaSearch_eq s.toList h none]
  cases firstOcc ("User-Agent:".toList) s.toList <;> rfl

/-! ## Claim C4 (corrected) -/

/-- C4 counterexample: on the line consisting of exactly the token
User-Agent:, the token occurs, so the claim asserts the field holds the
empty remainder after the colon; the code stores the none marker instead,
because group 1 of the pattern needs at least one character. The literal
reading of the claim, specUaLit, gives the empty string there. -/
theorem c4_counterexample :
    (extractFields "User-Agent:" none false false true).lookup "user_agent"
      = some none ∧
    specUaLit "User-Agent:" = some "" := by
  constructor
  · decide
  · decide

/-- C4 amended: with the UserAgent rule active, the user_agent field holds
for every line (of readlines shape: no interior newline) the value of
specUaAm: for the first occurrence of the token User-Agent:, with rest the
remainder after the colon and core that remainder without its trailing
newline, the field is null when the token does not occur or core is empty;
otherwise it holds the remainder of core after any immediately following
whitespace, verbatim including trailing characters, when that remainder is
nonempty; otherwise (core entirely whitespace) the last whitespace
character of core. In particular the Mozilla example of the claim holds. -/
theorem c4_amended_thm (line : String)
    (cm : Option (String → Option String)) (ip ec : Bool)
    (h : NoInnerNl line) :
    (extractFields line cm ip ec true).lookup "user_agent" =
      some (specUaAm line) ∧
    (extractFields "User-Agent: Mozilla/5.0" none false false true).lookup
      "user_agent" = some (some "Mozilla/5.0") := by
  constructor
  · rw [lookup_ua, if_pos rfl, pyUaSearch_eq_specUaAm h]
  · decide

/-- C4 amended, witness: a concrete line with a trailing space and newline
after the agent text, evaluated through the amended reading. -/
theorem c4_amended_witness :
    (extractFields "User-Agent: Mozilla/5.0 \x0a" none false false
        true).lookup "user_agent" =
      some (specUaAm "User-Agent: Mozilla/5.0 \x0a") ∧
    (extractFields "User-Agent: Mozilla/5.0" none false false true).lookup
      "user_agent" = some (some "Mozilla/5.0") :=
  c4_amended_thm "User-Agent: Mozilla/5.0 \x0a" none false false
    (by
      show ∀ c ∈ ("User-Agent: Mozilla/5.0 \x0a").toList.dropLast,
        c ≠ '\x0a'
      decide)

end AnalyzeLogs
